import Mathlib

/-!
# TooN: the matrix exponential (`helpers.h`) and the group `SL(n)` (`sl.h`)

A shallow embedding of the two headers.  The template parameter `Precision`
is instantiated with the exact rationals `ℚ`; a matrix with `R` rows and `C`
columns is a function `Fin R → Fin C → ℚ`.  Integer variables of the source
(`int i`, `row`, `col`, `s`) are integers of Lean, with explicit 32-bit
wrap-around where the source shifts.  Operations that can fail (size tests,
assertions) return `Except`.  The loop of `exp_taylor`, whose termination
depends on the data, carries a bound on the number of its iterations; the
loop of `generator` is a total function that reports a run-away loop.
-/

namespace TooN

/-- The ways an operation of the library can fail. -/
inductive Failure where
  /-- a dimension test of `SizeMismatch` failed -/
  | size_mismatch
  /-- an `assert` failed -/
  | assertion
  /-- the program left the defined behaviour of the language: an element
  access outside the matrix, a shift by the width of `int` or more, or a loop
  that can only end through signed overflow -/
  | undefined
  /-- not an outcome of the program: the bound on the number of iterations
  that was given to the model of a loop was too small -/
  | out_of_fuel
  deriving DecidableEq, Repr

/-- Dense matrix with `R` rows and `C` columns over the precision type. -/
abbrev Mat (R C : Nat) := Matrix (Fin R) (Fin C) ℚ

/-- The operator `Zero`: every entry is set to 0 (`helpers.h`, lines 126-133). -/
def Zero (R C : Nat) : Mat R C := fun _ _ => 0

/-- The operator `Identity`: every entry is set to 0, then the diagonal
entries are set to 1 (`helpers.h`, lines 174-187). -/
def Identity (n : Nat) : Mat n n := fun r c => if r = c then 1 else 0

/-- Modelled from the spec: the class `LU` of `TooN/LU.h` is not among the
sources; the spec describes it as the capability that, given a square matrix,
produces its `determinant()`.  The determinant is the exact one. -/
def LU_determinant {N : Nat} (M : Mat N N) : ℚ := Matrix.det M

/-- The scalar division `M /= d`: every entry is divided by `d`. -/
def divScalar {R C : Nat} (M : Mat R C) (d : ℚ) : Mat R C := fun r c => M r c / d

/-- The static function `SL<N>::coerce(M)` (`sl.h`, lines 70-78).  The
argument is passed by reference; the value returned is the content of `M`
after the call.  The two tests of `SizeMismatch` (declared in `TooN/TooN.h`,
which is not among the sources) are taken from the spec: they raise the
size-mismatch error when `M` does not have `N` rows or `N` columns. -/
def coerce (N : Nat) {R C : Nat} (M : Mat R C) : Except Failure (Mat R C) :=
  if hR : N = R then
    if hC : N = C then
      let det := LU_determinant (Matrix.submatrix M (Fin.cast hR) (Fin.cast hC))
      if |det| > 0 then .ok (divScalar M det) else .error .assertion
    else .error .size_mismatch
  else .error .size_mismatch

/-- An element of `SL<N>`: the class has the single data member `my_matrix`. -/
structure SL (N : Nat) where
  my_matrix : Mat N N

/-- The accessor `get_matrix()` (`sl.h`, line 59). -/
def SL.get_matrix {N : Nat} (a : SL N) : Mat N N := a.my_matrix

/-- The default constructor `SL() : my_matrix(Identity)` (`sl.h`, line 50). -/
def SL.default (N : Nat) : SL N := ⟨Identity N⟩

/-- The constructor `SL(Matrix& M) : my_matrix(M) { coerce(M); }`
(`sl.h`, lines 54-57).  The member `my_matrix` is initialised with a copy of
`M`; then `coerce` is called on the argument `M` itself.  The value returned
is the constructed element together with the content of the caller's matrix
after the call. -/
def SL.ofMatrix (N : Nat) {R C : Nat} (M : Mat R C) : Except Failure (SL N × Mat R C) :=
  if hR : N = R then
    if hC : N = C then
      let my_matrix : Mat N N := Matrix.submatrix M (Fin.cast hR) (Fin.cast hC)
      match coerce N M with
      | .ok M' => .ok (⟨my_matrix⟩, M')
      | .error e => .error e
    else .error .size_mismatch
  else .error .size_mismatch

/-! ### The generators of the Lie algebra (`sl.h`) -/

/-- The constant `dim = N*N - 1` (`sl.h`, line 48). -/
def dim (N : Nat) : Int := (N : Int) * (N : Int) - 1

/-- The constant `COUNT_DIAG = N - 1` (`sl.h`, line 88). -/
def COUNT_DIAG (N : Nat) : Int := (N : Int) - 1

/-- The constant `COUNT_SYMM = (dim - COUNT_DIAG)/2` (`sl.h`, line 89); the
division is the truncating division of `int`. -/
def COUNT_SYMM (N : Nat) : Int := Int.tdiv (dim N - COUNT_DIAG N) 2

/-- The constant `COUNT_ASYMM = COUNT_SYMM` (`sl.h`, line 90). -/
def COUNT_ASYMM (N : Nat) : Int := COUNT_SYMM N

/-- The constant `DIAG_LIMIT = COUNT_DIAG` (`sl.h`, line 91). -/
def DIAG_LIMIT (N : Nat) : Int := COUNT_DIAG N

/-- The constant `SYMM_LIMIT = COUNT_SYMM + DIAG_LIMIT` (`sl.h`, line 92). -/
def SYMM_LIMIT (N : Nat) : Int := COUNT_SYMM N + DIAG_LIMIT N

/-- The element write `m(r,c) = v` with `int` indices; an index outside the
matrix is outside the defined behaviour. -/
def setEntry {R C : Nat} (m : Mat R C) (r c : Int) (v : ℚ) : Except Failure (Mat R C) :=
  if 0 ≤ r ∧ r < (R : Int) ∧ 0 ≤ c ∧ c < (C : Int) then
    .ok (fun a b => if ((a : Nat) : Int) = r ∧ ((b : Nat) : Int) = c then v else m a b)
  else .error .undefined

/-- The loop of `generator` (`sl.h`, lines 119-122 and 127-130):
`while(col > N - row - 1){ col -= N - row - 1; ++row; }`, returning the final
`(row, col)`.  When the test holds with `N - row - 1 <= 0` the loop can never
stop on its own (`col` does not decrease any more and the bound keeps
falling), which is reported as `none`. -/
def unrankLoop (N : Int) (row col : Int) : Option (Int × Int) :=
  if col > N - row - 1 then
    if 0 < N - row - 1 then unrankLoop N (row + 1) (col - (N - row - 1))
    else none
  else some (row, col)
termination_by col.toNat
decreasing_by omega

/-- The static function `SL<N>::generator(i)` (`sl.h`, lines 110-136). -/
def generator (N : Nat) (i : Int) : Except Failure (Mat N N) :=
  if i > -1 ∧ i < dim N then
    if i < DIAG_LIMIT N then
      (setEntry (Zero N N) i i 1).bind fun result =>
        setEntry result (i + 1) (i + 1) (-1)
    else if i < SYMM_LIMIT N then
      match unrankLoop N 0 (i - DIAG_LIMIT N + 1) with
      | none => .error .undefined
      | some (row, col) =>
        (setEntry (Zero N N) (col + row) row 1).bind fun result =>
          setEntry result row (col + row) 1
    else
      match unrankLoop N 0 (i - SYMM_LIMIT N + 1) with
      | none => .error .undefined
      | some (row, col) =>
        (setEntry (Zero N N) row (col + row) (-1)).bind fun result =>
          setEntry result (col + row) row 1
  else .error .assertion

/-! ### Norms and the matrix exponential (`helpers.h`) -/

/-- The function `norm_inf` (`helpers.h`, lines 200-212): the outer loop over
the rows keeps the running maximum `n`, the inner loop sums the absolute
values of a row into `s`. -/
def norm_inf {R C : Nat} (m : Mat R C) : ℚ :=
  (List.finRange R).foldl
    (fun n r => max n ((List.finRange C).foldl (fun s c => s + |m r c|) 0)) 0

/-- The function `norm_1` (`helpers.h`, lines 216-228): as `norm_inf`, with
the roles of rows and columns exchanged. -/
def norm_1 {R C : Nat} (m : Mat R C) : ℚ :=
  (List.finRange C).foldl
    (fun n c => max n ((List.finRange R).foldl (fun s r => s + |m r c|) 0)) 0

/-- The variables of the loop of `exp_taylor`. -/
structure TaylorState (n : Nat) where
  result : Mat n n
  f : Mat n n
  k : ℚ

/-- The state before the loop of `exp_taylor`: `result = Zero`,
`f = Identity`, `k = 1` (`helpers.h`, lines 234-236). -/
def taylor_init (n : Nat) : TaylorState n := ⟨Zero n n, Identity n, 1⟩

/-- The loop test `norm_inf((result+f)-result) > 0` (`helpers.h`, line 237). -/
def taylor_test {n : Nat} (st : TaylorState n) : Bool :=
  decide (norm_inf ((st.result + st.f) - st.result) > 0)

/-- The loop body `result += f; f = (m * f) / k; k += 1`
(`helpers.h`, lines 238-240). -/
def taylor_body {n : Nat} (m : Mat n n) (st : TaylorState n) : TaylorState n :=
  ⟨st.result + st.f, divScalar (m * st.f) st.k, st.k + 1⟩

/-- The loop of `exp_taylor`, run for at most `fuel` iterations: the final
state when the test fails within the bound, `none` otherwise. -/
def taylor_loop {n : Nat} (m : Mat n n) (fuel : Nat) (st : TaylorState n) :
    Option (TaylorState n) :=
  if taylor_test st then
    match fuel with
    | 0 => none
    | fuel + 1 => taylor_loop m fuel (taylor_body m st)
  else some st

/-- The function `Internal::exp_taylor` (`helpers.h`, lines 231-243) on a
square matrix (the test of `SizeMismatch<R,C>` passes). -/
def exp_taylor {n : Nat} (fuel : Nat) (m : Mat n n) : Except Failure (Mat n n) :=
  match taylor_loop m fuel (taylor_init n) with
  | some st => .ok st.result
  | none => .error .out_of_fuel

/-- The least value of `int`. -/
def INT_MIN : Int := -2 ^ 31

/-- The expression `(int)ceil(log2(x))` of `exp` (`helpers.h`, lines 255-256).
For `x > 0` it is the least integer `e` with `x <= 2^e`.  For `x = 0` the
logarithm is minus infinity, and so is its ceiling; the conversion of that
value to `int` gives `INT_MIN` on the usual targets. -/
def int_ceil_log2 (x : ℚ) : Int :=
  if 0 < x then Int.clog 2 x else INT_MIN

/-- The scaling exponent `s = max(0,(int)ceil(l))` with `l = log2(norm_inf(m))`
(`helpers.h`, lines 255-256). -/
def exp_scaling {n : Nat} (m : Mat n n) : Int :=
  max 0 (int_ceil_log2 (norm_inf m))

/-- The expression `1<<s` on the 32-bit `int`, for `s >= 0`: `2^s` below 31,
`INT_MIN` (the wrapped value of `2^31`) at 31, and outside the defined
behaviour from 32 on. -/
def shl_one (s : Int) : Except Failure Int :=
  if s < 32 then .ok ((((2 : Int) ^ s.toNat + 2 ^ 31) % 2 ^ 32) - 2 ^ 31)
  else .error .undefined

/-- The loop `for(int i = 0; i < s; ++i) result = result * result`
(`helpers.h`, lines 258-259), as the number of squarings. -/
def square_times {n : Nat} : Nat → Mat n n → Mat n n
  | 0, result => result
  | i + 1, result => square_times i (result * result)

/-- The function `exp` (`helpers.h`, lines 251-261) on a square matrix (the
test of `SizeMismatch<R,C>` passes); `fuel` bounds the iterations of the
Taylor loop. -/
def exp {n : Nat} (fuel : Nat) (m : Mat n n) : Except Failure (Mat n n) :=
  let s := exp_scaling m
  (shl_one s).bind fun p =>
    (exp_taylor fuel (divScalar m (p : ℚ))).bind fun result =>
      .ok (square_times s.toNat result)

/-- The loop `for(int i = 0; i < dim; ++i) t += generator(i) * v[i]` of
`SL<N>::exp` (`sl.h`, lines 103-104), over the given list of indices. -/
def sum_generators (N : Nat) {S : Nat} (v : Fin S → ℚ) :
    List Nat → Mat N N → Except Failure (Mat N N)
  | [], t => .ok t
  | i :: rest, t =>
    (generator N (i : Int)).bind fun g =>
      if h : i < S then sum_generators N v rest (t + v ⟨i, h⟩ • g)
      else .error .undefined

/-- The static function `SL<N>::exp(v)` (`sl.h`, lines 98-108); `fuel` bounds
the iterations of the Taylor loop. -/
def SL.exp (fuel : Nat) (N : Nat) {S : Nat} (v : Fin S → ℚ) : Except Failure (SL N) :=
  if (S : Int) = dim N then
    (sum_generators N v (List.range (dim N).toNat) (Zero N N)).bind fun t =>
      (TooN.exp fuel t).bind fun m => .ok ⟨m⟩
  else .error .size_mismatch

/-! ### The group operations of `SL<N>` and the outcome of `coerce` -/

/-- Modelled from the spec: the class `LU` of `TooN/LU.h` is not among the
sources; the spec describes it as the capability that, given a square matrix,
produces a `get_inverse()`.  The inverse is the exact one, computed by
Cramer's rule: the adjugate divided by the determinant. -/
def LU_get_inverse {N : Nat} (M : Mat N N) : Mat N N :=
  (LU_determinant M)⁻¹ • Matrix.adjugate M

/-- The member `inverse()`, through the private constructor
`SL(const SL & from, struct Invert)` (`sl.h`, lines 60 and 82): the inverse
that `LU` computes is stored as it is. -/
def SL.inverse {N : Nat} (a : SL N) : SL N := ⟨LU_get_inverse a.get_matrix⟩

/-- The operator `*` on two elements, through the private constructor
`SL(const SL & a, const SL & b)` (`sl.h`, lines 62 and 83): the product of
the two matrices is stored as it is. -/
def SL.mul {N : Nat} (a rhs : SL N) : SL N := ⟨a.get_matrix * rhs.get_matrix⟩

/-- The operator `*=` (`sl.h`, line 63): `*this = *this*rhs; return *this;`.
The value is the receiver after the call together with the element
returned. -/
def SL.mul_assign {N : Nat} (a rhs : SL N) : SL N × SL N :=
  let this := SL.mul a rhs
  (this, this)

/-- The static function `SL<N>::coerce(M)` (`sl.h`, lines 70-78) together
with the content of the argument `M` at the moment control leaves the
function, normally or through a failure: the only statement that writes to
`M` is the last one, `M /= det`. -/
def coerce_state (N : Nat) {R C : Nat} (M : Mat R C) : Except Failure Unit × Mat R C :=
  if hR : N = R then
    if hC : N = C then
      let det := LU_determinant (Matrix.submatrix M (Fin.cast hR) (Fin.cast hC))
      if |det| > 0 then (.ok (), divScalar M det) else (.error .assertion, M)
    else (.error .size_mismatch, M)
  else (.error .size_mismatch, M)

/-! ### The description of the generators in the specification -/

/-- The matrix with `+1` at `(i,i)`, `-1` at `(i+1,i+1)` and 0 elsewhere. -/
def diag_matrix (N : Nat) (i : Nat) : Mat N N :=
  fun a b =>
    if (a : Nat) = i ∧ (b : Nat) = i then 1
    else if (a : Nat) = i + 1 ∧ (b : Nat) = i + 1 then -1
    else 0

/-- The matrix with `+1` at `(row,col)` and at `(col,row)` and 0 elsewhere. -/
def symm_matrix (N : Nat) (row col : Nat) : Mat N N :=
  fun a b =>
    if ((a : Nat) = row ∧ (b : Nat) = col) ∨ ((a : Nat) = col ∧ (b : Nat) = row) then 1
    else 0

/-- The matrix with `-1` at `(row,col)`, `+1` at `(col,row)` and 0 elsewhere. -/
def asymm_matrix (N : Nat) (row col : Nat) : Mat N N :=
  fun a b =>
    if (a : Nat) = row ∧ (b : Nat) = col then -1
    else if (a : Nat) = col ∧ (b : Nat) = row then 1
    else 0

/-- The pairs `(row, col)` with `row < col < N` in row-major order:
`(0,1), (0,2), ..., (0,N-1), (1,2), ...`.  The pair of rank `k` is the entry
of index `k` of this list. -/
def upper_pairs (N : Nat) : List (Nat × Nat) :=
  (List.range N).flatMap fun r => (List.range' (r + 1) (N - 1 - r)).map fun c => (r, c)

/-- The number of pairs of `upper_pairs N` in the rows before `row`. -/
def pairs_before (N : Nat) : Nat → Nat
  | 0 => 0
  | row + 1 => pairs_before N row + (N - 1 - row)

/-! ## Coercion -/

theorem coerce_square (N : Nat) (M : Mat N N) :
    coerce N M =
      if |LU_determinant M| > 0 then .ok (divScalar M (LU_determinant M))
      else .error .assertion := by
  simp [coerce]

theorem det_divScalar (N : Nat) (M : Mat N N) (d : ℚ) :
    Matrix.det (divScalar M d) = Matrix.det M / d ^ N := by
  have h : divScalar M d = d⁻¹ • M := by
    funext r c
    simp [divScalar, div_eq_inv_mul]
  rw [h, Matrix.det_smul]
  simp [div_eq_inv_mul]

/-- What `coerce` does to the determinant: for a matrix with non-zero
determinant `det` the call succeeds, leaves `M / det`, and the determinant of
that matrix is `det / det ^ N`. -/
theorem coerce_det (N : Nat) (M : Mat N N) (h : LU_determinant M ≠ 0) :
    coerce N M = .ok (divScalar M (LU_determinant M)) ∧
      Matrix.det (divScalar M (LU_determinant M))
        = LU_determinant M / LU_determinant M ^ N := by
  refine ⟨?_, ?_⟩
  · rw [coerce_square, if_pos (abs_pos.mpr h)]
  · rw [det_divScalar]; rfl

theorem coerce_two_two :
    coerce 2 (!![2, 0; 0, 2] : Mat 2 2) = .ok (!![1/2, 0; 0, 1/2] : Mat 2 2) := by
  have hd : LU_determinant (!![2, 0; 0, 2] : Mat 2 2) = 4 := by
    simp [LU_determinant, Matrix.det_fin_two]; norm_num
  rw [coerce_square, hd, if_pos (by norm_num)]
  congr 1
  funext r c
  fin_cases r <;> fin_cases c <;> simp [divScalar] <;> norm_num

/-- C1 (evaluation at the failing input): for `N = 2`, `coerce` turns
`[[2,0],[0,2]]` (determinant 4) into `[[1/2,0],[0,1/2]]`, whose determinant is
`1/4` and not 1. -/
theorem coerce_two_two_det :
    LU_determinant (!![2, 0; 0, 2] : Mat 2 2) = 4 ∧
      coerce 2 (!![2, 0; 0, 2] : Mat 2 2) = .ok (!![1/2, 0; 0, 1/2] : Mat 2 2) ∧
      LU_determinant (!![1/2, 0; 0, 1/2] : Mat 2 2) = 1/4 ∧
      LU_determinant (!![1/2, 0; 0, 1/2] : Mat 2 2) ≠ 1 := by
  refine ⟨?_, coerce_two_two, ?_, ?_⟩
  · simp [LU_determinant, Matrix.det_fin_two]; norm_num
  · simp [LU_determinant, Matrix.det_fin_two]; norm_num
  · simp [LU_determinant, Matrix.det_fin_two]; norm_num

/-- The coercing constructor keeps the matrix it was given: for every matrix
with non-zero determinant, `get_matrix()` of the constructed element is the
original `M`, and the quotient `M / det` is left in the caller's matrix. -/
theorem ofMatrix_keeps (N : Nat) (M : Mat N N) (h : LU_determinant M ≠ 0) :
    ∃ a : SL N, SL.ofMatrix N M = .ok (a, divScalar M (LU_determinant M)) ∧
      a.get_matrix = M := by
  refine ⟨⟨M⟩, ?_, rfl⟩
  simp only [SL.ofMatrix, dite_true, (coerce_det N M h).1]
  rfl

/-- C2 (evaluation at the failing input): the element constructed from
`[[2,0],[0,2]]` holds `[[2,0],[0,2]]`, not `[[1/2,0],[0,1/2]]`; the quotient
is left in the argument. -/
theorem ofMatrix_two_two :
    (∃ a : SL 2, SL.ofMatrix 2 (!![2, 0; 0, 2] : Mat 2 2)
        = .ok (a, (!![1/2, 0; 0, 1/2] : Mat 2 2)) ∧
      a.get_matrix = !![2, 0; 0, 2]) ∧
    (!![2, 0; 0, 2] : Mat 2 2) ≠ !![1/2, 0; 0, 1/2] := by
  refine ⟨⟨⟨!![2, 0; 0, 2]⟩, ?_, rfl⟩, ?_⟩
  · simp only [SL.ofMatrix, dite_true, coerce_two_two]
    rfl
  · intro h
    have := congrFun (congrFun h 0) 0
    norm_num at this

/-! ## The generators -/

theorem pairs_before_closed (N : Nat) :
    ∀ r : Nat, r ≤ N →
      2 * (pairs_before N r : Int) = (r : Int) * (2 * (N : Int) - (r : Int) - 1)
  | 0, _ => by simp [pairs_before]
  | r + 1, h => by
    have ih := pairs_before_closed N r (by omega)
    have hc : ((N - 1 - r : Nat) : Int) = (N : Int) - 1 - (r : Int) := by omega
    simp only [pairs_before]
    push_cast
    rw [hc]
    linarith [ih]

theorem pairs_before_mono (N : Nat) {r r' : Nat} (h : r ≤ r') :
    pairs_before N r ≤ pairs_before N r' := by
  induction h with
  | refl => exact le_refl _
  | step _ ih => exact le_trans ih (by simp [pairs_before])

/-- The loop of `generator` stops: started in row `row` with an offset `col`
that fits into the rows from `row` on, it ends in a row `r` with a remaining
offset `c` between 1 and `N - 1 - r`, and the pairs skipped plus `c` make up
the offset it started with. -/
theorem unrankLoop_spec (N : Nat) :
    ∀ (d row : Nat) (col : Int), d = N - row → row ≤ N → 1 ≤ col →
      2 * col ≤ ((N : Int) - row) * ((N : Int) - row - 1) →
      ∃ (r : Nat) (c : Int), unrankLoop N row col = some ((r : Int), c) ∧
        row ≤ r ∧ r < N ∧ 1 ≤ c ∧ c ≤ (N : Int) - 1 - r ∧
        (pairs_before N r : Int) + c = (pairs_before N row : Int) + col := by
  intro d
  induction d with
  | zero =>
    intro row col hd hrow hcol h2
    have : (N : Int) - row = 0 := by omega
    rw [this] at h2
    omega
  | succ d ih =>
    intro row col hd hrow hcol h2
    rw [unrankLoop]
    by_cases hgt : col > (N : Int) - row - 1
    · have hpos : 0 < (N : Int) - row - 1 := by
        by_contra hneg
        have h0 : (N : Int) - row - 1 = 0 := by omega
        rw [h0] at h2
        omega
      rw [if_pos hgt, if_pos hpos]
      have h2' : 2 * (col - ((N : Int) - row - 1))
          ≤ ((N : Int) - (row + 1 : Nat)) * ((N : Int) - (row + 1 : Nat) - 1) := by
        push_cast
        nlinarith
      obtain ⟨r, c, hloop, hr, hrN, hc1, hc2, hsum⟩ :=
        ih (row + 1) (col - ((N : Int) - row - 1)) (by omega) (by omega) (by omega) h2'
      refine ⟨r, c, ?_, by omega, hrN, hc1, hc2, ?_⟩
      · rw [← hloop]; push_cast; rfl
      · rw [hsum]
        have hc : ((N - 1 - row : Nat) : Int) = (N : Int) - 1 - (row : Int) := by omega
        simp only [pairs_before]
        push_cast
        rw [hc]
        ring
    · rw [if_neg hgt]
      refine ⟨row, col, rfl, le_refl _, ?_, hcol, by omega, rfl⟩
      omega

theorem COUNT_SYMM_eq (N : Nat) : COUNT_SYMM N = (pairs_before N N : Int) := by
  have h := pairs_before_closed N N (le_refl _)
  have h2 : dim N - COUNT_DIAG N = 2 * (pairs_before N N : Int) := by
    simp only [dim, COUNT_DIAG]
    rw [h]
    ring
  rw [COUNT_SYMM, h2, Int.mul_tdiv_cancel_left _ (by norm_num)]

theorem SYMM_LIMIT_eq (N : Nat) :
    SYMM_LIMIT N = (N : Int) - 1 + (pairs_before N N : Int) := by
  rw [SYMM_LIMIT, COUNT_SYMM_eq, DIAG_LIMIT, COUNT_DIAG]
  ring

theorem dim_eq (N : Nat) :
    dim N = (N : Int) - 1 + 2 * (pairs_before N N : Int) := by
  rw [pairs_before_closed N N (le_refl _), dim]
  ring

/-- The number `N(N-1)/2` of the claims is the number of pairs. -/
theorem pairs_count (N : Nat) : (N : Int) * ((N : Int) - 1) / 2 = (pairs_before N N : Int) := by
  have h := pairs_before_closed N N (le_refl _)
  have h2 : (N : Int) * ((N : Int) - 1) = 2 * (pairs_before N N : Int) := by
    rw [h]; ring
  rw [h2, Int.mul_ediv_cancel_left _ (by norm_num)]

/-- The loop of `generator` started with the offset `k + 1`, for a rank
`k` below the number of pairs. -/
theorem unrank_rank (N : Nat) (k : Nat) (hk : k < pairs_before N N) :
    ∃ row col : Nat, row < col ∧ col < N ∧
      unrankLoop N 0 ((k : Int) + 1) = some ((row : Int), (col : Int) - row) ∧
      pairs_before N row + (col - row - 1) = k := by
  have hcl := pairs_before_closed N N (le_refl _)
  have h2 : 2 * ((k : Int) + 1) ≤ ((N : Int) - (0 : Nat)) * ((N : Int) - (0 : Nat) - 1) := by
    have : (k : Int) + 1 ≤ pairs_before N N := by exact_mod_cast hk
    push_cast
    nlinarith
  obtain ⟨r, c, hloop, _, hrN, hc1, hc2, hsum⟩ :=
    unrankLoop_spec N N 0 ((k : Int) + 1) rfl (Nat.zero_le _) (by omega) h2
  refine ⟨r, (c + r).toNat, by omega, by omega, ?_, ?_⟩
  · have hloop' : unrankLoop N 0 ((k : Int) + 1) = some ((r : Int), c) := by
      simpa using hloop
    have : ((c + r).toNat : Int) - r = c := by omega
    rw [hloop', this]
  · simp only [pairs_before] at hsum
    omega

theorem pairs_row_getElem (N row j : Nat) (hj : j < N - 1 - row) :
    ((List.range' (row + 1) (N - 1 - row)).map fun c => (row, c))[j]?
      = some (row, row + 1 + j) := by
  rw [List.getElem?_map, List.getElem?_range' _ _ hj]
  simp

theorem upper_pairs_length_aux (N : Nat) : ∀ n : Nat,
    ((List.range n).flatMap fun r =>
      (List.range' (r + 1) (N - 1 - r)).map fun c => (r, c)).length = pairs_before N n
  | 0 => by simp [pairs_before]
  | n + 1 => by
    rw [List.range_succ, List.flatMap_append, List.length_append,
      upper_pairs_length_aux N n, List.flatMap_singleton]
    simp [pairs_before]

theorem upper_pairs_length (N : Nat) : (upper_pairs N).length = pairs_before N N :=
  upper_pairs_length_aux N N

theorem upper_pairs_getElem_aux (N row j : Nat) (hj : j < N - 1 - row) : ∀ n : Nat, row < n →
    ((List.range n).flatMap fun r =>
      (List.range' (r + 1) (N - 1 - r)).map fun c => (r, c))[pairs_before N row + j]?
      = some (row, row + 1 + j)
  | 0, h => absurd h (Nat.not_lt_zero _)
  | n + 1, h => by
    rw [List.range_succ, List.flatMap_append, List.flatMap_singleton]
    by_cases hrow : row < n
    · have hlt : pairs_before N row + j < pairs_before N n := by
        have := pairs_before_mono N (Nat.succ_le_of_lt hrow)
        simp only [pairs_before] at this
        omega
      rw [List.getElem?_append_left (by rw [upper_pairs_length_aux]; exact hlt)]
      exact upper_pairs_getElem_aux N row j hj n hrow
    · have hn : row = n := by omega
      subst hn
      rw [List.getElem?_append_right (by rw [upper_pairs_length_aux]; omega),
        upper_pairs_length_aux]
      have : pairs_before N row + j - pairs_before N row = j := by omega
      rw [this]
      exact pairs_row_getElem N row j hj

/-- The pair `(row, col)` with `row < col < N` stands in `upper_pairs N` at
the index `pairs_before N row + (col - row - 1)`. -/
theorem upper_pairs_getElem (N row col : Nat) (h1 : row < col) (h2 : col < N) :
    (upper_pairs N)[pairs_before N row + (col - row - 1)]? = some (row, col) := by
  have h := upper_pairs_getElem_aux N row (col - row - 1) (by omega) N (by omega)
  have hc : row + 1 + (col - row - 1) = col := by omega
  rw [hc] at h
  exact h

/-- The rank determines the pair: two pairs of the strict upper triangle
with the same rank are the same pair. -/
theorem rank_inj (N : Nat) {row col row' col' : Nat} (h1 : row < col) (h2 : col < N)
    (h1' : row' < col') (h2' : col' < N)
    (h : pairs_before N row + (col - row - 1) = pairs_before N row' + (col' - row' - 1)) :
    row = row' ∧ col = col' := by
  have ha := upper_pairs_getElem N row col h1 h2
  have hb := upper_pairs_getElem N row' col' h1' h2'
  rw [h, hb] at ha
  simpa [eq_comm] using ha

theorem setEntry_ok {R C : Nat} (m : Mat R C) (r c : Nat) (v : ℚ) (hr : r < R) (hc : c < C) :
    setEntry m (r : Int) (c : Int) v
      = .ok (fun a b => if (a : Nat) = r ∧ (b : Nat) = c then v else m a b) := by
  have h : 0 ≤ (r : Int) ∧ (r : Int) < (R : Int) ∧ 0 ≤ (c : Int) ∧ (c : Int) < (C : Int) := by
    omega
  rw [setEntry, if_pos h]
  congr 1
  funext a b
  simp only [Nat.cast_inj]

/-- The diagonal branch of `generator`. -/
theorem generator_diag_nat (N i : Nat) (h : i + 1 < N) :
    generator N (i : Int) = .ok (diag_matrix N i) := by
  have hdim := dim_eq N
  have hrange : (i : Int) > -1 ∧ (i : Int) < dim N := by omega
  have hdiag : (i : Int) < DIAG_LIMIT N := by
    simp only [DIAG_LIMIT, COUNT_DIAG]; omega
  have h1 : ((i : Int) + 1) = ((i + 1 : Nat) : Int) := by push_cast; rfl
  rw [generator, if_pos hrange, if_pos hdiag, setEntry_ok _ i i 1 (by omega) (by omega)]
  simp only [Except.bind]
  rw [h1, setEntry_ok _ (i + 1) (i + 1) (-1) h h]
  congr 1
  funext a b
  simp only [diag_matrix, Zero]
  by_cases ha : (a : Nat) = i + 1 ∧ (b : Nat) = i + 1
  · have hn : ¬ ((a : Nat) = i ∧ (b : Nat) = i) := by omega
    rw [if_pos ha, if_neg hn, if_pos ha]
  · rw [if_neg ha, if_neg ha]

/-- The symmetric branch of `generator`, for the index of rank `k`. -/
theorem generator_symm_nat (N k row col : Nat) (hk : k < pairs_before N N)
    (h1 : row < col) (h2 : col < N)
    (hloop : unrankLoop N 0 ((k : Int) + 1) = some ((row : Int), (col : Int) - row)) :
    generator N ((N : Int) - 1 + k) = .ok (symm_matrix N row col) := by
  have hdim := dim_eq N
  have hsl := SYMM_LIMIT_eq N
  have hrange : (N : Int) - 1 + k > -1 ∧ (N : Int) - 1 + k < dim N := by omega
  have hdiag : ¬ ((N : Int) - 1 + k < DIAG_LIMIT N) := by
    simp only [DIAG_LIMIT, COUNT_DIAG]; omega
  have hsymm : (N : Int) - 1 + k < SYMM_LIMIT N := by omega
  have hoff : (N : Int) - 1 + k - DIAG_LIMIT N + 1 = (k : Int) + 1 := by
    simp only [DIAG_LIMIT, COUNT_DIAG]; omega
  have hcol : (col : Int) - row + row = col := by omega
  rw [generator, if_pos hrange, if_neg hdiag, if_pos hsymm, hoff, hloop]
  simp only [hcol]
  rw [setEntry_ok _ col row 1 h2 (by omega)]
  simp only [Except.bind]
  rw [setEntry_ok _ row col 1 (by omega) h2]
  congr 1
  funext a b
  simp only [symm_matrix, Zero]
  by_cases ha : (a : Nat) = row ∧ (b : Nat) = col
  · rw [if_pos ha, if_pos (Or.inl ha)]
  · by_cases hb : (a : Nat) = col ∧ (b : Nat) = row
    · rw [if_neg ha, if_pos hb, if_pos (Or.inr hb)]
    · rw [if_neg ha, if_neg hb, if_neg (by tauto)]

/-- The antisymmetric branch of `generator`, for the index of rank `k`. -/
theorem generator_asymm_nat (N k row col : Nat) (hk : k < pairs_before N N)
    (h1 : row < col) (h2 : col < N)
    (hloop : unrankLoop N 0 ((k : Int) + 1) = some ((row : Int), (col : Int) - row)) :
    generator N ((N : Int) - 1 + pairs_before N N + k) = .ok (asymm_matrix N row col) := by
  have hdim := dim_eq N
  have hsl := SYMM_LIMIT_eq N
  have hrange : (N : Int) - 1 + pairs_before N N + k > -1 ∧
      (N : Int) - 1 + pairs_before N N + k < dim N := by omega
  have hdiag : ¬ ((N : Int) - 1 + pairs_before N N + k < DIAG_LIMIT N) := by
    simp only [DIAG_LIMIT, COUNT_DIAG]; omega
  have hsymm : ¬ ((N : Int) - 1 + pairs_before N N + k < SYMM_LIMIT N) := by omega
  have hoff : (N : Int) - 1 + pairs_before N N + k - SYMM_LIMIT N + 1 = (k : Int) + 1 := by
    omega
  have hcol : (col : Int) - row + row = col := by omega
  rw [generator, if_pos hrange, if_neg hdiag, if_neg hsymm, hoff, hloop]
  simp only [hcol]
  rw [setEntry_ok _ row col (-1) (by omega) h2]
  simp only [Except.bind]
  rw [setEntry_ok _ col row 1 h2 (by omega)]
  congr 1
  funext a b
  simp only [asymm_matrix, Zero]
  by_cases ha : (a : Nat) = row ∧ (b : Nat) = col
  · have hn : ¬ ((a : Nat) = col ∧ (b : Nat) = row) := by omega
    rw [if_neg hn, if_pos ha, if_pos ha]
  · by_cases hb : (a : Nat) = col ∧ (b : Nat) = row
    · rw [if_pos hb, if_neg ha, if_pos hb]
    · rw [if_neg hb, if_neg ha, if_neg ha, if_neg hb]

/-- Every index of the range `[0, dim)` falls into one of the three branches
of `generator`, and the branch produces the matrix described for it. -/
theorem generator_cases (N : Nat) (i : Int) (h0 : 0 ≤ i) (h1 : i < dim N) :
    (∃ j : Nat, i = (j : Int) ∧ j + 1 < N ∧ generator N i = .ok (diag_matrix N j)) ∨
    (∃ k row col : Nat, i = (N : Int) - 1 + k ∧ k < pairs_before N N ∧
      row < col ∧ col < N ∧ pairs_before N row + (col - row - 1) = k ∧
      unrankLoop N 0 ((k : Int) + 1) = some ((row : Int), (col : Int) - row) ∧
      generator N i = .ok (symm_matrix N row col)) ∨
    (∃ k row col : Nat, i = (N : Int) - 1 + pairs_before N N + k ∧ k < pairs_before N N ∧
      row < col ∧ col < N ∧ pairs_before N row + (col - row - 1) = k ∧
      unrankLoop N 0 ((k : Int) + 1) = some ((row : Int), (col : Int) - row) ∧
      generator N i = .ok (asymm_matrix N row col)) := by
  have hdim := dim_eq N
  by_cases hd : i < (N : Int) - 1
  · left
    refine ⟨i.toNat, by omega, by omega, ?_⟩
    have hi : i = ((i.toNat : Nat) : Int) := by omega
    rw [hi]
    exact generator_diag_nat N i.toNat (by omega)
  · by_cases hs : i < (N : Int) - 1 + pairs_before N N
    · right; left
      have hk : (i - ((N : Int) - 1)).toNat < pairs_before N N := by omega
      obtain ⟨row, col, hrc, hcN, hloop, hrank⟩ := unrank_rank N _ hk
      refine ⟨(i - ((N : Int) - 1)).toNat, row, col, by omega, hk, hrc, hcN, hrank, hloop, ?_⟩
      have hi : i = (N : Int) - 1 + ((i - ((N : Int) - 1)).toNat : Nat) := by omega
      rw [hi]
      exact generator_symm_nat N _ row col hk hrc hcN hloop
    · right; right
      have hk : (i - ((N : Int) - 1) - pairs_before N N).toNat < pairs_before N N := by omega
      obtain ⟨row, col, hrc, hcN, hloop, hrank⟩ := unrank_rank N _ hk
      refine ⟨(i - ((N : Int) - 1) - pairs_before N N).toNat, row, col, by omega, hk, hrc, hcN,
        hrank, hloop, ?_⟩
      have hi : i = (N : Int) - 1 + pairs_before N N
          + ((i - ((N : Int) - 1) - pairs_before N N).toNat : Nat) := by omega
      rw [hi]
      exact generator_asymm_nat N _ row col hk hrc hcN hloop

theorem trace_diag_matrix (N i : Nat) (h : i + 1 < N) :
    Matrix.trace (diag_matrix N i) = 0 := by
  have hf : (fun a : Fin N => diag_matrix N i a a)
      = fun a => (if a = (⟨i, by omega⟩ : Fin N) then (1 : ℚ) else 0)
          + (if a = (⟨i + 1, h⟩ : Fin N) then (-1 : ℚ) else 0) := by
    funext a
    simp only [diag_matrix, and_self, Fin.ext_iff]
    by_cases h1 : (a : Nat) = i
    · have h2 : ¬ ((a : Nat) = i + 1) := by omega
      simp [h1]
    · by_cases h2 : (a : Nat) = i + 1
      · simp [h2]
      · simp [h1, h2]
  simp only [Matrix.trace, Matrix.diag]
  rw [hf, Finset.sum_add_distrib]
  simp

theorem trace_symm_matrix (N row col : Nat) (h : row < col) :
    Matrix.trace (symm_matrix N row col) = 0 := by
  simp only [Matrix.trace, Matrix.diag]
  apply Finset.sum_eq_zero
  intro a _
  have hn : ¬ (((a : Nat) = row ∧ (a : Nat) = col) ∨ ((a : Nat) = col ∧ (a : Nat) = row)) := by
    omega
  simp only [symm_matrix, if_neg hn]

theorem trace_asymm_matrix (N row col : Nat) (h : row < col) :
    Matrix.trace (asymm_matrix N row col) = 0 := by
  simp only [Matrix.trace, Matrix.diag]
  apply Finset.sum_eq_zero
  intro a _
  have hn : ¬ ((a : Nat) = row ∧ (a : Nat) = col) := by omega
  have hn' : ¬ ((a : Nat) = col ∧ (a : Nat) = row) := by omega
  simp only [asymm_matrix, if_neg hn, if_neg hn']

theorem generator_two_zero : generator 2 0 = .ok (!![1, 0; 0, -1] : Mat 2 2) := by
  have h := generator_diag_nat 2 0 (by norm_num)
  rw [show ((0 : Nat) : Int) = 0 from rfl] at h
  rw [h]
  congr 1
  funext a b
  fin_cases a <;> fin_cases b <;> simp [diag_matrix]

theorem generator_traceless (N : Nat) (i : Int) (h0 : 0 ≤ i) (h1 : i < dim N) :
    ∃ G : Mat N N, generator N i = .ok G ∧ Matrix.trace G = 0 := by
  rcases generator_cases N i h0 h1 with
    ⟨j, _, hj, hg⟩ | ⟨k, row, col, _, _, hrc, _, _, _, hg⟩ | ⟨k, row, col, _, _, hrc, _, _, _, hg⟩
  · exact ⟨_, hg, trace_diag_matrix N j hj⟩
  · exact ⟨_, hg, trace_symm_matrix N row col hrc⟩
  · exact ⟨_, hg, trace_asymm_matrix N row col hrc⟩

/-- C5: for every `N` and every index `i` with `0 <= i < N*N - 1`, the call
`generator(i)` returns a matrix, and the trace of that matrix is exactly 0. -/
theorem generator_trace_zero (N : Nat) (i : Int) (h0 : 0 ≤ i)
    (h1 : i < (N : Int) * (N : Int) - 1) :
    ∃ G : Mat N N, generator N i = .ok G ∧ Matrix.trace G = 0 :=
  generator_traceless N i h0 h1

/-- Witness of C5 at `N = 3`, `i = 4`. -/
theorem generator_trace_zero_witness :
    (0 : Int) ≤ 4 ∧ (4 : Int) < ((3 : Nat) : Int) * ((3 : Nat) : Int) - 1 ∧
      ∃ G : Mat 3 3, generator 3 4 = .ok G ∧ Matrix.trace G = 0 :=
  ⟨by decide, by decide, generator_trace_zero 3 4 (by decide) (by decide)⟩

/-- C6: for every `N` and every `i` with `0 <= i < N - 1`, `generator(i)` is
the matrix with `+1` at `(i,i)`, `-1` at `(i+1,i+1)` and 0 at every other
position; for `N = 2`, `generator(0) = [[1,0],[0,-1]]`. -/
theorem generator_diagonal :
    (∀ (N : Nat) (i : Int), 0 ≤ i → i < (N : Int) - 1 →
      generator N i = .ok (diag_matrix N i.toNat)) ∧
    generator 2 0 = .ok (!![1, 0; 0, -1] : Mat 2 2) := by
  refine ⟨?_, generator_two_zero⟩
  intro N i h0 h1
  have hi : ((i.toNat : Nat) : Int) = i := by omega
  have h := generator_diag_nat N i.toNat (by omega)
  rw [hi] at h
  exact h

/-- Witness of C6 at `N = 3`, `i = 1`. -/
theorem generator_diagonal_witness :
    (0 : Int) ≤ 1 ∧ (1 : Int) < ((3 : Nat) : Int) - 1 ∧
      generator 3 1 = .ok (diag_matrix 3 (1 : Int).toNat) :=
  ⟨by decide, by decide, generator_diagonal.1 3 1 (by decide) (by decide)⟩

theorem rank_lt (N row col : Nat) (h1 : row < col) (h2 : col < N) :
    pairs_before N row + (col - row - 1) < pairs_before N N := by
  have h := pairs_before_mono N (show row + 1 ≤ N by omega)
  simp only [pairs_before] at h
  omega

/-- The loop started with the offset `k + 1` ends at the pair `(row, col)`
exactly when `k` is the rank of that pair. -/
theorem unrank_pair_iff (N k row col : Nat) (hk : k < pairs_before N N)
    (h1 : row < col) (h2 : col < N) :
    unrankLoop N 0 ((k : Int) + 1) = some ((row : Int), (col : Int) - row)
      ↔ pairs_before N row + (col - row - 1) = k := by
  obtain ⟨row', col', h1', h2', hloop, hrank⟩ := unrank_rank N k hk
  constructor
  · intro h
    rw [hloop] at h
    simp only [Option.some.injEq, Prod.mk.injEq] at h
    have hr : row' = row := by omega
    have hc : col' = col := by omega
    rw [← hr, ← hc]
    exact hrank
  · intro h
    obtain ⟨hr, hc⟩ := rank_inj N h1 h2 h1' h2' (h.trans hrank.symm)
    rw [hr, hc]
    exact hloop

/-- The indices of a branch of `generator` that starts at `base` and the
pairs of the strict upper triangle correspond one to one through the loop. -/
theorem unrank_bijective (N : Nat) (base : Int) (row col : Nat) (h1 : row < col) (h2 : col < N) :
    ∃! i : Int, base ≤ i ∧ i < base + (pairs_before N N : Int) ∧
      unrankLoop N 0 (i - base + 1) = some ((row : Int), (col : Int) - row) := by
  have hlt := rank_lt N row col h1 h2
  refine ⟨base + ((pairs_before N row + (col - row - 1) : Nat) : Int), ⟨by omega, by omega, ?_⟩, ?_⟩
  · have : base + ((pairs_before N row + (col - row - 1) : Nat) : Int) - base + 1
        = ((pairs_before N row + (col - row - 1) : Nat) : Int) + 1 := by ring
    rw [this]
    exact (unrank_pair_iff N _ row col hlt h1 h2).mpr rfl
  · rintro i ⟨hi0, hi1, hloop⟩
    have hk : (i - base).toNat < pairs_before N N := by omega
    have : i - base + 1 = (((i - base).toNat : Nat) : Int) + 1 := by omega
    rw [this] at hloop
    have := (unrank_pair_iff N _ row col hk h1 h2).mp hloop
    omega

theorem generator_two_one : generator 2 1 = .ok (!![0, 1; 1, 0] : Mat 2 2) := by
  have hk : 0 < pairs_before 2 2 := by decide
  have hloop := (unrank_pair_iff 2 0 0 1 hk (by decide) (by decide)).mpr (by decide)
  have h := generator_symm_nat 2 0 0 1 hk (by decide) (by decide) hloop
  have hi : ((2 : Nat) : Int) - 1 + ((0 : Nat) : Int) = 1 := by decide
  rw [hi] at h
  rw [h]
  congr 1
  funext a b
  fin_cases a <;> fin_cases b <;> simp [symm_matrix]

theorem generator_two_two : generator 2 2 = .ok (!![0, -1; 1, 0] : Mat 2 2) := by
  have hk : 0 < pairs_before 2 2 := by decide
  have hloop := (unrank_pair_iff 2 0 0 1 hk (by decide) (by decide)).mpr (by decide)
  have h := generator_asymm_nat 2 0 0 1 hk (by decide) (by decide) hloop
  have hi : ((2 : Nat) : Int) - 1 + ((pairs_before 2 2 : Nat) : Int) + ((0 : Nat) : Int) = 2 := by
    decide
  rw [hi] at h
  rw [h]
  congr 1
  funext a b
  fin_cases a <;> fin_cases b <;> simp [asymm_matrix]

/-- C7: for every `N >= 2` and every `i` with `N-1 <= i < N-1+C`, where
`C = N(N-1)/2`, the loop of `generator(i)` stops with a pair `(row, col)`
(after `col += row`) such that `0 <= row < col < N`, this pair is the pair of
rank `i-(N-1)` in row-major order of the strict upper triangle, and
`generator(i)` has `+1` at `(row,col)` and `(col,row)` and 0 elsewhere; every
pair with `row < col < N` is reached from exactly one index of the range; and
for `N = 2`, `generator(1) = [[0,1],[1,0]]`. -/
theorem generator_symmetric :
    (∀ (N : Nat) (i : Int), 2 ≤ N → (N : Int) - 1 ≤ i →
      i < (N : Int) - 1 + (N : Int) * ((N : Int) - 1) / 2 →
      ∃ row col : Nat, row < col ∧ col < N ∧
        unrankLoop N 0 (i - DIAG_LIMIT N + 1) = some ((row : Int), (col : Int) - row) ∧
        (upper_pairs N)[(i - ((N : Int) - 1)).toNat]? = some (row, col) ∧
        generator N i = .ok (symm_matrix N row col)) ∧
    (∀ (N : Nat), 2 ≤ N → ∀ row col : Nat, row < col → col < N →
      ∃! i : Int, (N : Int) - 1 ≤ i ∧ i < (N : Int) - 1 + (N : Int) * ((N : Int) - 1) / 2 ∧
        unrankLoop N 0 (i - DIAG_LIMIT N + 1) = some ((row : Int), (col : Int) - row)) ∧
    generator 2 1 = .ok (!![0, 1; 1, 0] : Mat 2 2) := by
  refine ⟨?_, ?_, generator_two_one⟩
  · intro N i _ hlo hhi
    rw [pairs_count] at hhi
    have hk : (i - ((N : Int) - 1)).toNat < pairs_before N N := by omega
    obtain ⟨row, col, hrc, hcN, hloop, hrank⟩ := unrank_rank N _ hk
    have hoff : i - DIAG_LIMIT N + 1 = (((i - ((N : Int) - 1)).toNat : Nat) : Int) + 1 := by
      simp only [DIAG_LIMIT, COUNT_DIAG]; omega
    have hi : (N : Int) - 1 + (((i - ((N : Int) - 1)).toNat : Nat) : Int) = i := by omega
    have hg := generator_symm_nat N _ row col hk hrc hcN hloop
    rw [hi] at hg
    refine ⟨row, col, hrc, hcN, ?_, ?_, hg⟩
    · rw [hoff]; exact hloop
    · rw [← hrank]; exact upper_pairs_getElem N row col hrc hcN
  · intro N _ row col hrc hcN
    rw [pairs_count]
    exact unrank_bijective N (DIAG_LIMIT N) row col hrc hcN

/-- Witness of C7 at `N = 3`, `i = 3`. -/
theorem generator_symmetric_witness :
    2 ≤ 3 ∧ ((3 : Nat) : Int) - 1 ≤ 3 ∧
      (3 : Int) < ((3 : Nat) : Int) - 1 + ((3 : Nat) : Int) * (((3 : Nat) : Int) - 1) / 2 ∧
      ∃ row col : Nat, row < col ∧ col < 3 ∧
        unrankLoop (3 : Nat) 0 (3 - DIAG_LIMIT 3 + 1) = some ((row : Int), (col : Int) - row) ∧
        (upper_pairs 3)[((3 : Int) - (((3 : Nat) : Int) - 1)).toNat]? = some (row, col) ∧
        generator 3 3 = .ok (symm_matrix 3 row col) :=
  ⟨by decide, by decide, by decide,
    generator_symmetric.1 3 3 (by decide) (by decide) (by decide)⟩

/-- C8: for every `N >= 2` and every `i` with `N-1+C <= i < N*N-1`, where
`C = N(N-1)/2`, `generator(i)` has `-1` at `(row,col)`, `+1` at `(col,row)`
and 0 elsewhere, where `(row, col)` with `0 <= row < col < N` is the pair of
rank `i-(N-1+C)` in row-major order of the strict upper triangle, found by
the same loop as for the symmetric generators; for `N = 2`,
`generator(2) = [[0,-1],[1,0]]`. -/
theorem generator_antisymmetric :
    (∀ (N : Nat) (i : Int), 2 ≤ N → (N : Int) - 1 + (N : Int) * ((N : Int) - 1) / 2 ≤ i →
      i < (N : Int) * (N : Int) - 1 →
      ∃ row col : Nat, row < col ∧ col < N ∧
        unrankLoop N 0 (i - SYMM_LIMIT N + 1) = some ((row : Int), (col : Int) - row) ∧
        (upper_pairs N)[(i - ((N : Int) - 1 + (N : Int) * ((N : Int) - 1) / 2)).toNat]?
          = some (row, col) ∧
        generator N i = .ok (asymm_matrix N row col)) ∧
    generator 2 2 = .ok (!![0, -1; 1, 0] : Mat 2 2) := by
  refine ⟨?_, generator_two_two⟩
  intro N i _ hlo hhi
  rw [pairs_count] at hlo
  rw [pairs_count]
  have hdim := dim_eq N
  rw [dim] at hdim
  have hsl := SYMM_LIMIT_eq N
  have hk : (i - ((N : Int) - 1 + pairs_before N N)).toNat < pairs_before N N := by omega
  obtain ⟨row, col, hrc, hcN, hloop, hrank⟩ := unrank_rank N _ hk
  have hoff : i - SYMM_LIMIT N + 1
      = (((i - ((N : Int) - 1 + pairs_before N N)).toNat : Nat) : Int) + 1 := by omega
  have hi : (N : Int) - 1 + pairs_before N N
      + (((i - ((N : Int) - 1 + pairs_before N N)).toNat : Nat) : Int) = i := by omega
  have hg := generator_asymm_nat N _ row col hk hrc hcN hloop
  rw [hi] at hg
  refine ⟨row, col, hrc, hcN, ?_, ?_, hg⟩
  · rw [hoff]; exact hloop
  · rw [← hrank]; exact upper_pairs_getElem N row col hrc hcN

/-- Witness of C8 at `N = 3`, `i = 6`. -/
theorem generator_antisymmetric_witness :
    2 ≤ 3 ∧ ((3 : Nat) : Int) - 1 + ((3 : Nat) : Int) * (((3 : Nat) : Int) - 1) / 2 ≤ 6 ∧
      (6 : Int) < ((3 : Nat) : Int) * ((3 : Nat) : Int) - 1 ∧
      ∃ row col : Nat, row < col ∧ col < 3 ∧
        unrankLoop (3 : Nat) 0 (6 - SYMM_LIMIT 3 + 1) = some ((row : Int), (col : Int) - row) ∧
        (upper_pairs 3)[((6 : Int) - (((3 : Nat) : Int) - 1
          + ((3 : Nat) : Int) * (((3 : Nat) : Int) - 1) / 2)).toNat]? = some (row, col) ∧
        generator 3 6 = .ok (asymm_matrix 3 row col) :=
  ⟨by decide, by decide, by decide,
    generator_antisymmetric.1 3 6 (by decide) (by decide) (by decide)⟩

/-! ### The generators form a basis of the traceless matrices -/

/-- Off the diagonal, at the two positions of a pair `(row, col)` of the
strict upper triangle, only the symmetric and the antisymmetric generator of
that pair have a non-zero entry. -/
theorem generator_entry_offdiag (N : Nat) (i : Int) (h0 : 0 ≤ i) (h1 : i < dim N)
    (G : Mat N N) (hG : generator N i = .ok G) (row col : Nat) (hrc : row < col) (hcN : col < N)
    (hs : i ≠ (N : Int) - 1 + ((pairs_before N row + (col - row - 1) : Nat) : Int))
    (ha : i ≠ (N : Int) - 1 + pairs_before N N
      + ((pairs_before N row + (col - row - 1) : Nat) : Int)) :
    G ⟨row, by omega⟩ ⟨col, hcN⟩ = 0 ∧ G ⟨col, hcN⟩ ⟨row, by omega⟩ = 0 := by
  rcases generator_cases N i h0 h1 with
    ⟨j, _, _, hg⟩ | ⟨k, r, c, hi, _, hr, _, hrank, _, hg⟩ | ⟨k, r, c, hi, _, hr, _, hrank, _, hg⟩
  · rw [hG] at hg
    have hG' : G = diag_matrix N j := Except.ok.inj hg
    subst hG'
    have n1 : ¬ (row = j ∧ col = j) := by omega
    have n2 : ¬ (row = j + 1 ∧ col = j + 1) := by omega
    have n3 : ¬ (col = j ∧ row = j) := by omega
    have n4 : ¬ (col = j + 1 ∧ row = j + 1) := by omega
    simp only [diag_matrix, if_neg n1, if_neg n2, if_neg n3, if_neg n4, and_self]
  · rw [hG] at hg
    have hG' : G = symm_matrix N r c := Except.ok.inj hg
    subst hG'
    have hne : ¬ (row = r ∧ col = c) := by
      rintro ⟨h, h'⟩
      subst h; subst h'
      omega
    have n1 : ¬ ((row = r ∧ col = c) ∨ (row = c ∧ col = r)) := by omega
    have n2 : ¬ ((col = r ∧ row = c) ∨ (col = c ∧ row = r)) := by omega
    simp only [symm_matrix, if_neg n1, if_neg n2, and_self]
  · rw [hG] at hg
    have hG' : G = asymm_matrix N r c := Except.ok.inj hg
    subst hG'
    have hne : ¬ (row = r ∧ col = c) := by
      rintro ⟨h, h'⟩
      subst h; subst h'
      omega
    have n1 : ¬ (row = c ∧ col = r) := by omega
    have n2 : ¬ (col = c ∧ row = r) := by omega
    have n3 : ¬ (col = r ∧ row = c) := by omega
    simp only [asymm_matrix, if_neg hne, if_neg n1, if_neg n2, if_neg n3, and_self]

/-- On the diagonal, at the position `(m, m)`, only the diagonal generators
of index `m` and `m - 1` have a non-zero entry. -/
theorem generator_entry_diag (N : Nat) (i : Int) (h0 : 0 ≤ i) (h1 : i < dim N)
    (G : Mat N N) (hG : generator N i = .ok G) (m : Nat) (hm : m < N)
    (hne : G ⟨m, hm⟩ ⟨m, hm⟩ ≠ 0) : i = (m : Int) ∨ i + 1 = (m : Int) := by
  rcases generator_cases N i h0 h1 with
    ⟨j, hi, _, hg⟩ | ⟨k, r, c, _, _, hr, _, _, _, hg⟩ | ⟨k, r, c, _, _, hr, _, _, _, hg⟩
  · rw [hG] at hg
    have hG' : G = diag_matrix N j := Except.ok.inj hg
    subst hG'
    by_contra hcon
    have n1 : ¬ (m = j) := by omega
    have n2 : ¬ (m = j + 1) := by omega
    simp only [diag_matrix, and_self, if_neg n1, if_neg n2] at hne
    exact hne rfl
  · rw [hG] at hg
    have hG' : G = symm_matrix N r c := Except.ok.inj hg
    subst hG'
    have n1 : ¬ ((m = r ∧ m = c) ∨ (m = c ∧ m = r)) := by omega
    simp only [symm_matrix, if_neg n1] at hne
    exact absurd rfl hne
  · rw [hG] at hg
    have hG' : G = asymm_matrix N r c := Except.ok.inj hg
    subst hG'
    have n1 : ¬ (m = r ∧ m = c) := by omega
    have n2 : ¬ (m = c ∧ m = r) := by omega
    simp only [asymm_matrix, if_neg n1, if_neg n2] at hne
    exact absurd rfl hne

theorem dim_cast (N : Nat) (hN : 1 ≤ N) : ((N * N - 1 : Nat) : Int) = dim N := by
  have h : 1 ≤ N * N := Nat.mul_pos hN hN
  rw [dim, Nat.cast_sub h]
  push_cast
  ring

/-- The matrices returned by `generator` for the indices of `[0, dim)` are
linearly independent. -/
theorem generators_independent (N : Nat) (hN : 1 ≤ N) (G : Fin (N * N - 1) → Mat N N)
    (hG : ∀ i : Fin (N * N - 1), generator N ((i : Nat) : Int) = .ok (G i)) :
    LinearIndependent ℚ G := by
  have hD := dim_cast N hN
  have hdim := dim_eq N
  rw [Fintype.linearIndependent_iff]
  intro g hg
  have entry : ∀ a b : Fin N, ∑ i, g i * G i a b = 0 := by
    intro a b
    have := congrFun (congrFun hg a) b
    simpa [Matrix.sum_apply, Matrix.smul_apply] using this
  have hrange : ∀ i : Fin (N * N - 1), (0 : Int) ≤ ((i : Nat) : Int) ∧ ((i : Nat) : Int) < dim N :=
    fun i => ⟨by omega, by have := i.2; omega⟩
  -- the coefficients of the diagonal generators
  have hdiag : ∀ m : Nat, m + 1 < N → ∀ hmD : m < N * N - 1, g ⟨m, hmD⟩ = 0 := by
    intro m
    induction m using Nat.strong_induction_on with
    | _ m ih =>
      intro hm hmD
      have e := entry ⟨m, by omega⟩ ⟨m, by omega⟩
      rw [Finset.sum_eq_single (⟨m, hmD⟩ : Fin (N * N - 1))] at e
      · have hGm : G ⟨m, hmD⟩ = diag_matrix N m :=
          Except.ok.inj ((hG ⟨m, hmD⟩).symm.trans (generator_diag_nat N m hm))
        rw [hGm] at e
        simpa [diag_matrix] using e
      · intro b _ hb
        by_cases hz : G b ⟨m, by omega⟩ ⟨m, by omega⟩ = 0
        · rw [hz, mul_zero]
        · rcases generator_entry_diag N b (hrange b).1 (hrange b).2 (G b) (hG b) m (by omega) hz
            with h | h
          · exact absurd (Fin.ext (by simp only; omega)) hb
          · have hb0 : g b = 0 := ih (b : Nat) (by omega) (by omega) b.2
            rw [hb0, zero_mul]
      · intro h
        exact absurd (Finset.mem_univ _) h
  -- the coefficients of the two generators of a pair
  have hpair : ∀ row col : Nat, row < col → col < N →
      ∀ (h1 : N - 1 + (pairs_before N row + (col - row - 1)) < N * N - 1)
        (h2 : N - 1 + pairs_before N N + (pairs_before N row + (col - row - 1)) < N * N - 1),
        g ⟨_, h1⟩ = 0 ∧ g ⟨_, h2⟩ = 0 := by
    intro row col hrc hcN h1 h2
    have hk := rank_lt N row col hrc hcN
    have hloop := (unrank_pair_iff N _ row col hk hrc hcN).mpr rfl
    have c1 : (((N - 1 + (pairs_before N row + (col - row - 1)) : Nat)) : Int)
        = (N : Int) - 1 + ((pairs_before N row + (col - row - 1) : Nat) : Int) := by omega
    have c2 : (((N - 1 + pairs_before N N + (pairs_before N row + (col - row - 1)) : Nat)) : Int)
        = (N : Int) - 1 + pairs_before N N
          + ((pairs_before N row + (col - row - 1) : Nat) : Int) := by omega
    have hG1 : G ⟨_, h1⟩ = symm_matrix N row col := by
      have h := hG ⟨_, h1⟩
      simp only [c1] at h
      exact Except.ok.inj (h.symm.trans (generator_symm_nat N _ row col hk hrc hcN hloop))
    have hG2 : G ⟨_, h2⟩ = asymm_matrix N row col := by
      have h := hG ⟨_, h2⟩
      simp only [c2] at h
      exact Except.ok.inj (h.symm.trans (generator_asymm_nat N _ row col hk hrc hcN hloop))
    have hne : (⟨_, h1⟩ : Fin (N * N - 1)) ≠ ⟨_, h2⟩ := by
      intro h
      have := congrArg Fin.val h
      simp only at this
      omega
    have hother : ∀ c : Fin (N * N - 1), c ≠ ⟨_, h1⟩ ∧ c ≠ ⟨_, h2⟩ →
        G c ⟨row, by omega⟩ ⟨col, hcN⟩ = 0 ∧ G c ⟨col, hcN⟩ ⟨row, by omega⟩ = 0 := by
      intro c hc
      apply generator_entry_offdiag N c (hrange c).1 (hrange c).2 (G c) (hG c) row col hrc hcN
      · intro h
        exact hc.1 (Fin.ext (by simp only; omega))
      · intro h
        exact hc.2 (Fin.ext (by simp only; omega))
    have e1 := entry ⟨row, by omega⟩ ⟨col, hcN⟩
    rw [Finset.sum_eq_add_of_mem _ _ (Finset.mem_univ _) (Finset.mem_univ _) hne
      (fun c _ hc => by rw [(hother c hc).1, mul_zero]), hG1, hG2] at e1
    have e2 := entry ⟨col, hcN⟩ ⟨row, by omega⟩
    rw [Finset.sum_eq_add_of_mem _ _ (Finset.mem_univ _) (Finset.mem_univ _) hne
      (fun c _ hc => by rw [(hother c hc).2, mul_zero]), hG1, hG2] at e2
    have n1 : ¬ (col = row) := by omega
    have n2 : ¬ (row = col) := by omega
    simp [symm_matrix, asymm_matrix, n1, n2] at e1 e2
    constructor <;> linarith
  intro i
  rcases generator_cases N i (hrange i).1 (hrange i).2 with
    ⟨j, hi, hj, _⟩ | ⟨k, r, c, hi, _, hr, hc, hrank, _, _⟩ | ⟨k, r, c, hi, _, hr, hc, hrank, _, _⟩
  · have h := hdiag j hj (by have := i.2; omega)
    have he : i = ⟨j, by have := i.2; omega⟩ := Fin.ext (by simp only; omega)
    rw [he]; exact h
  · have he : (i : Nat) = N - 1 + (pairs_before N r + (c - r - 1)) := by omega
    have h := (hpair r c hr hc (by have := i.2; omega) (by have := i.2; omega)).1
    have he' : i = ⟨_, (by have := i.2; omega :
        N - 1 + (pairs_before N r + (c - r - 1)) < N * N - 1)⟩ := Fin.ext he
    rw [he']; exact h
  · have he : (i : Nat) = N - 1 + pairs_before N N + (pairs_before N r + (c - r - 1)) := by omega
    have h := (hpair r c hr hc (by have := i.2; omega) (by have := i.2; omega)).2
    have he' : i = ⟨_, (by have := i.2; omega :
        N - 1 + pairs_before N N + (pairs_before N r + (c - r - 1)) < N * N - 1)⟩ := Fin.ext he
    rw [he']; exact h

theorem trace_surjective (N : Nat) (hN : 1 ≤ N) :
    Function.Surjective (Matrix.traceLinearMap (Fin N) ℚ ℚ) := by
  intro c
  refine ⟨Matrix.diagonal (fun a => if a = (⟨0, hN⟩ : Fin N) then c else 0), ?_⟩
  simp [Matrix.traceLinearMap, Matrix.trace_diagonal]

theorem finrank_traceless (N : Nat) (hN : 1 ≤ N) :
    Module.finrank ℚ (LinearMap.ker (Matrix.traceLinearMap (Fin N) ℚ ℚ)) = N * N - 1 := by
  have h := LinearMap.finrank_range_add_finrank_ker (Matrix.traceLinearMap (Fin N) ℚ ℚ)
  rw [LinearMap.range_eq_top.mpr (trace_surjective N hN), finrank_top, Module.finrank_self,
    Module.finrank_matrix] at h
  simp only [Fintype.card_fin, Module.finrank_self, mul_one] at h
  omega

/-- The matrices returned by `generator` for the indices of `[0, dim)` span
the space of the matrices of trace 0. -/
theorem generators_span (N : Nat) (hN : 1 ≤ N) (G : Fin (N * N - 1) → Mat N N)
    (hG : ∀ i : Fin (N * N - 1), generator N ((i : Nat) : Int) = .ok (G i)) :
    Submodule.span ℚ (Set.range G) = LinearMap.ker (Matrix.traceLinearMap (Fin N) ℚ ℚ) := by
  have hD := dim_cast N hN
  have hle : Submodule.span ℚ (Set.range G)
      ≤ LinearMap.ker (Matrix.traceLinearMap (Fin N) ℚ ℚ) := by
    rw [Submodule.span_le]
    rintro _ ⟨i, rfl⟩
    obtain ⟨G', hG', ht⟩ := generator_traceless N ((i : Nat) : Int) (by omega)
      (by have := i.2; omega)
    have : G i = G' := Except.ok.inj ((hG i).symm.trans hG')
    rw [SetLike.mem_coe, LinearMap.mem_ker, this]
    exact ht
  apply Submodule.eq_of_le_of_finrank_eq hle
  rw [finrank_span_eq_card (generators_independent N hN G hG), finrank_traceless N hN,
    Fintype.card_fin]

/-- C4: for every `N >= 1`, the calls `generator(0)`, ..., `generator(dim-1)`
with `dim = N*N - 1` return matrices that are linearly independent and whose
span is exactly the space of the `N x N` matrices of trace 0: they form a
basis of the traceless matrices. -/
theorem generators_basis (N : Nat) (hN : 1 ≤ N) :
    ∃ G : Fin (N * N - 1) → Mat N N,
      (∀ i : Fin (N * N - 1), generator N ((i : Nat) : Int) = .ok (G i)) ∧
      LinearIndependent ℚ G ∧
      Submodule.span ℚ (Set.range G) = LinearMap.ker (Matrix.traceLinearMap (Fin N) ℚ ℚ) := by
  have hD := dim_cast N hN
  have hex : ∀ i : Fin (N * N - 1), ∃ G' : Mat N N, generator N ((i : Nat) : Int) = .ok G' := by
    intro i
    obtain ⟨G', hG', _⟩ := generator_traceless N ((i : Nat) : Int) (by omega)
      (by have := i.2; omega)
    exact ⟨G', hG'⟩
  choose G hG using hex
  exact ⟨G, hG, generators_independent N hN G hG, generators_span N hN G hG⟩

/-- Witness of C4 at `N = 2`. -/
theorem generators_basis_witness :
    1 ≤ 2 ∧ ∃ G : Fin (2 * 2 - 1) → Mat 2 2,
      (∀ i : Fin (2 * 2 - 1), generator 2 ((i : Nat) : Int) = .ok (G i)) ∧
      LinearIndependent ℚ G ∧
      Submodule.span ℚ (Set.range G) = LinearMap.ker (Matrix.traceLinearMap (Fin 2) ℚ ℚ) :=
  ⟨by decide, generators_basis 2 (by decide)⟩

/-! ## Norms -/

theorem sum_fold {C : Nat} (f : Fin C → ℚ) :
    (List.finRange C).foldl (fun s c => s + f c) 0 = ∑ c, f c := by
  rw [Fin.sum_univ_def, List.sum_eq_foldl, List.foldl_map]

theorem max_fold_ge_init {α : Type} (g : α → ℚ) : ∀ (l : List α) (a : ℚ),
    a ≤ l.foldl (fun n r => max n (g r)) a
  | [], a => le_refl a
  | r :: l, a => le_trans (le_max_left a (g r)) (max_fold_ge_init g l (max a (g r)))

theorem max_fold_ge_mem {α : Type} (g : α → ℚ) : ∀ (l : List α) (a : ℚ) (r : α), r ∈ l →
    g r ≤ l.foldl (fun n r => max n (g r)) a
  | [], _, _, h => absurd h (List.not_mem_nil _)
  | x :: l, a, r, h => by
    rcases List.mem_cons.mp h with h | h
    · subst h
      exact le_trans (le_max_right a (g r)) (max_fold_ge_init g l (max a (g r)))
    · exact max_fold_ge_mem g l (max a (g x)) r h

theorem max_fold_eq {α : Type} (g : α → ℚ) : ∀ (l : List α) (a : ℚ),
    l.foldl (fun n r => max n (g r)) a = a ∨ ∃ r ∈ l, l.foldl (fun n r => max n (g r)) a = g r
  | [], a => Or.inl rfl
  | x :: l, a => by
    rcases max_fold_eq g l (max a (g x)) with h | ⟨r, hr, h⟩
    · rcases max_choice a (g x) with h' | h'
      · left
        rw [List.foldl_cons, h, h']
      · right
        exact ⟨x, List.mem_cons_self x l, by rw [List.foldl_cons, h, h']⟩
    · right
      exact ⟨r, List.mem_cons_of_mem x hr, h⟩

/-- The value of `norm_inf`, with the inner loop written as a sum. -/
theorem norm_inf_fold {R C : Nat} (m : Mat R C) :
    norm_inf m = (List.finRange R).foldl (fun n r => max n (∑ c, |m r c|)) 0 := by
  simp only [norm_inf, sum_fold]

theorem norm_inf_nonneg {R C : Nat} (m : Mat R C) : 0 ≤ norm_inf m := by
  rw [norm_inf_fold]
  exact max_fold_ge_init _ _ 0

theorem row_sum_le_norm_inf {R C : Nat} (m : Mat R C) (r : Fin R) :
    ∑ c, |m r c| ≤ norm_inf m := by
  rw [norm_inf_fold]
  exact max_fold_ge_mem (fun r => ∑ c, |m r c|) _ 0 r (List.mem_finRange r)

/-- The norm `norm_inf` is 0 exactly for the matrices whose entries are all 0. -/
theorem norm_inf_eq_zero_iff {R C : Nat} (m : Mat R C) :
    norm_inf m = 0 ↔ ∀ r c, m r c = 0 := by
  constructor
  · intro h r c
    have h1 := row_sum_le_norm_inf m r
    rw [h] at h1
    have h2 : |m r c| ≤ ∑ c, |m r c| :=
      Finset.single_le_sum (fun i _ => abs_nonneg (m r i)) (Finset.mem_univ c)
    exact abs_eq_zero.mp (le_antisymm (le_trans h2 h1) (abs_nonneg _))
  · intro h
    rw [norm_inf_fold]
    rcases max_fold_eq (fun r => ∑ c, |m r c|) (List.finRange R) 0 with h0 | ⟨r, _, hr⟩
    · exact h0
    · rw [hr]
      exact Finset.sum_eq_zero (fun c _ => by rw [h r c, abs_zero])

theorem norm_inf_Zero (R C : Nat) : norm_inf (Zero R C) = 0 :=
  (norm_inf_eq_zero_iff _).mpr (fun _ _ => rfl)

/-! ## The matrix exponential -/

theorem Zero_eq (R C : Nat) : Zero R C = 0 := rfl

theorem Identity_eq (n : Nat) : Identity n = 1 := by
  funext r c
  simp [Identity, Matrix.one_apply]

theorem divScalar_Zero (R C : Nat) (d : ℚ) : divScalar (Zero R C) d = Zero R C := by
  funext r c
  simp [divScalar, Zero]

/-- In exact arithmetic `(result + f) - result` is `f`: the loop of
`exp_taylor` goes on exactly as long as the term `f` has a non-zero entry. -/
theorem taylor_test_iff {n : Nat} (st : TaylorState n) :
    taylor_test st = true ↔ ∃ r c, st.f r c ≠ 0 := by
  have h : (st.result + st.f) - st.result = st.f := add_sub_cancel_left _ _
  simp only [taylor_test, h, decide_eq_true_eq]
  constructor
  · intro hpos
    by_contra hcon
    push_neg at hcon
    rw [(norm_inf_eq_zero_iff st.f).mpr hcon] at hpos
    exact lt_irrefl _ hpos
  · rintro ⟨r, c, hrc⟩
    refine lt_of_le_of_ne (norm_inf_nonneg _) (fun h0 => hrc ?_)
    exact (norm_inf_eq_zero_iff st.f).mp h0.symm r c

theorem taylor_body_Zero (n : Nat) :
    taylor_body (Zero n n) (taylor_init n) = ⟨Identity n, Zero n n, 2⟩ := by
  simp only [taylor_body, taylor_init, Zero_eq, zero_add, zero_mul]
  congr 1
  · funext r c
    simp [divScalar]
  · norm_num

theorem taylor_test_init (n : Nat) (hn : 1 ≤ n) : taylor_test (taylor_init n) = true := by
  rw [taylor_test_iff]
  exact ⟨⟨0, hn⟩, ⟨0, hn⟩, by simp [taylor_init, Identity]⟩

theorem taylor_test_after_Zero (n : Nat) :
    taylor_test (⟨Identity n, Zero n n, 2⟩ : TaylorState n) = false := by
  rw [Bool.eq_false_iff]
  intro h
  obtain ⟨r, c, hrc⟩ := (taylor_test_iff _).mp h
  exact hrc rfl

theorem taylor_test_init_empty : taylor_test (taylor_init 0) = false := by
  rw [Bool.eq_false_iff]
  intro h
  obtain ⟨r, _, _⟩ := (taylor_test_iff _).mp h
  exact r.elim0

theorem exp_scaling_Zero (n : Nat) : exp_scaling (Zero n n) = 0 := by
  simp [exp_scaling, norm_inf_Zero, int_ceil_log2, INT_MIN]

theorem shl_one_zero : shl_one 0 = .ok 1 := by
  simp [shl_one]

theorem taylor_loop_stop {n : Nat} (m : Mat n n) (fuel : Nat) (st : TaylorState n)
    (h : taylor_test st = false) : taylor_loop m fuel st = some st := by
  cases fuel <;> simp [taylor_loop, h]

theorem taylor_loop_step {n : Nat} (m : Mat n n) (fuel : Nat) (st : TaylorState n)
    (h : taylor_test st = true) :
    taylor_loop m (fuel + 1) st = taylor_loop m fuel (taylor_body m st) := by
  rw [taylor_loop, if_pos h]

theorem taylor_loop_exhausted {n : Nat} (m : Mat n n) (st : TaylorState n)
    (h : taylor_test st = true) : taylor_loop m 0 st = none := by
  rw [taylor_loop, if_pos h]

/-- The loop of `exp_taylor` on the zero matrix of size `n >= 1`: one
iteration, after which the test fails. -/
theorem taylor_loop_Zero (n : Nat) (hn : 1 ≤ n) (fuel : Nat) :
    taylor_loop (Zero n n) (fuel + 1) (taylor_init n) = some ⟨Identity n, Zero n n, 2⟩ := by
  rw [taylor_loop_step _ _ _ (taylor_test_init n hn), taylor_body_Zero,
    taylor_loop_stop _ _ _ (taylor_test_after_Zero n)]

theorem exp_taylor_Zero (n : Nat) (fuel : Nat) (hf : 1 ≤ fuel) :
    exp_taylor fuel (Zero n n) = .ok (Identity n) := by
  rcases Nat.eq_zero_or_pos n with h0 | hn
  · subst h0
    rw [exp_taylor, taylor_loop_stop _ _ _ taylor_test_init_empty]
    simp only
    congr 1
    funext r
    exact r.elim0
  · obtain ⟨fuel', rfl⟩ : ∃ fuel', fuel = fuel' + 1 := ⟨fuel - 1, by omega⟩
    rw [exp_taylor, taylor_loop_Zero n hn]

theorem exp_Zero (n : Nat) (fuel : Nat) (hf : 1 ≤ fuel) :
    exp fuel (Zero n n) = .ok (Identity n) := by
  simp only [exp, exp_scaling_Zero, shl_one_zero, Except.bind, Int.cast_one, divScalar_Zero,
    exp_taylor_Zero n fuel hf, Int.toNat_zero, square_times]

/-- C9 (counterexample): on the zero matrix of size 0 the loop of
`exp_taylor` runs no iteration at all: with the bound 0 on the number of
iterations it already returns, in its initial state, and whenever it returns
the counter `k` still has its initial value 1. -/
theorem exp_zero_empty_no_iteration :
    taylor_loop (Zero 0 0) 0 (taylor_init 0) = some (taylor_init 0) ∧
      taylor_loop (Zero 0 0) 0 (taylor_init 0) ≠ none ∧
      (∀ (fuel : Nat) (st : TaylorState 0),
        taylor_loop (Zero 0 0) fuel (taylor_init 0) = some st → st.k = 1) := by
  refine ⟨taylor_loop_stop _ _ _ taylor_test_init_empty, ?_, ?_⟩
  · rw [taylor_loop_stop _ _ _ taylor_test_init_empty]
    exact Option.some_ne_none _
  · intro fuel st h
    rw [taylor_loop_stop _ _ _ taylor_test_init_empty] at h
    rw [← Option.some.inj h]
    rfl

/-- C9 (amended): for every size `n`, `exp` applied to the `n x n` zero matrix
returns the `n x n` identity matrix exactly, the scaling exponent is 0 and no
squaring is performed; for `n >= 1` the Taylor loop runs exactly one
iteration and stops (no result within 0 iterations, the final state with
`k = 2` within 1 or more). -/
theorem exp_zero_matrix (n : Nat) (fuel : Nat) (hf : 1 ≤ fuel) :
    exp_scaling (Zero n n) = 0 ∧
      (exp_scaling (Zero n n)).toNat = 0 ∧
      exp fuel (Zero n n) = .ok (Identity n) ∧
      (1 ≤ n →
        taylor_loop (divScalar (Zero n n) ((1 : Int) : ℚ)) 0 (taylor_init n) = none ∧
        taylor_loop (divScalar (Zero n n) ((1 : Int) : ℚ)) fuel (taylor_init n)
          = some ⟨Identity n, Zero n n, 2⟩) := by
  refine ⟨exp_scaling_Zero n, by rw [exp_scaling_Zero]; rfl, exp_Zero n fuel hf, ?_⟩
  intro hn
  rw [divScalar_Zero]
  refine ⟨taylor_loop_exhausted _ _ (taylor_test_init n hn), ?_⟩
  obtain ⟨fuel', rfl⟩ : ∃ fuel', fuel = fuel' + 1 := ⟨fuel - 1, by omega⟩
  exact taylor_loop_Zero n hn fuel'

/-- Witness of C9: `exp([[0,0],[0,0]]) = [[1,0],[0,1]]`, with one iteration
of the Taylor loop. -/
theorem exp_zero_matrix_witness :
    exp 1 (!![0, 0; 0, 0] : Mat 2 2) = .ok (!![1, 0; 0, 1] : Mat 2 2) := by
  have h := (exp_zero_matrix 2 1 (le_refl 1)).2.2.1
  have hz : (!![0, 0; 0, 0] : Mat 2 2) = Zero 2 2 := by
    funext a b
    fin_cases a <;> fin_cases b <;> rfl
  have hi : (!![1, 0; 0, 1] : Mat 2 2) = Identity 2 := by
    funext a b
    fin_cases a <;> fin_cases b <;> simp [Identity]
  rw [hz, hi]
  exact h

/-! ### The exponential map of `SL<N>` in exact arithmetic -/

/-- In exact arithmetic the loop of `exp_taylor` does not stop on the
diagonal matrix `[[1,0],[0,-1]]` (the generator 0 of `SL<2>`): the entry
`(0,0)` of the term `f` is never 0. -/
theorem taylor_loop_diag_never_stops (fuel : Nat) :
    ∀ st : TaylorState 2, st.f 0 0 ≠ 0 → st.f 1 0 = 0 → 0 < st.k →
      taylor_loop (!![1, 0; 0, -1] : Mat 2 2) fuel st = none := by
  induction fuel with
  | zero =>
    intro st h0 _ _
    exact taylor_loop_exhausted _ _ ((taylor_test_iff st).mpr ⟨0, 0, h0⟩)
  | succ fuel ih =>
    intro st h0 h1 hk
    rw [taylor_loop_step _ _ _ ((taylor_test_iff st).mpr ⟨0, 0, h0⟩)]
    apply ih
    · simp only [taylor_body, divScalar, Matrix.mul_apply, Fin.sum_univ_two]
      simp [h1, h0, hk.ne']
    · simp only [taylor_body, divScalar, Matrix.mul_apply, Fin.sum_univ_two]
      simp [h1]
    · simp only [taylor_body]
      linarith

theorem exp_diag_out_of_fuel (fuel : Nat) :
    exp fuel (!![1, 0; 0, -1] : Mat 2 2) = .error .out_of_fuel := by
  have hn : norm_inf (!![1, 0; 0, -1] : Mat 2 2) = 1 := by
    simp [norm_inf, List.finRange]
  have hs : exp_scaling (!![1, 0; 0, -1] : Mat 2 2) = 0 := by
    simp [exp_scaling, hn, int_ceil_log2]
  have hd : divScalar (!![1, 0; 0, -1] : Mat 2 2) ((1 : Int) : ℚ) = !![1, 0; 0, -1] := by
    funext a b
    simp [divScalar]
  have hl := taylor_loop_diag_never_stops fuel (taylor_init 2)
    (by simp [taylor_init, Identity]) (by simp [taylor_init, Identity])
    (by simp [taylor_init])
  simp only [exp, hs, shl_one_zero, Except.bind, hd, exp_taylor, hl]

/-- The matrix that `SL<2>::exp` hands to the matrix exponential. -/
theorem sum_generators_two (v : Fin 3 → ℚ) :
    sum_generators 2 v (List.range (dim 2).toNat) (Zero 2 2)
      = .ok (!![v 0, v 1 - v 2; v 1 + v 2, -v 0] : Mat 2 2) := by
  have hr : List.range (dim 2).toNat = [0, 1, 2] := by decide
  have g0 : generator 2 ((0 : Nat) : Int) = .ok (!![1, 0; 0, -1] : Mat 2 2) := generator_two_zero
  have g1 : generator 2 ((1 : Nat) : Int) = .ok (!![0, 1; 1, 0] : Mat 2 2) := generator_two_one
  have g2 : generator 2 ((2 : Nat) : Int) = .ok (!![0, -1; 1, 0] : Mat 2 2) := generator_two_two
  rw [hr]
  simp only [sum_generators, g0, g1, g2, Except.bind]
  simp only [show (0 : Nat) < 3 by decide, show (1 : Nat) < 3 by decide,
    show (2 : Nat) < 3 by decide, dite_true]
  congr 1
  funext a b
  fin_cases a <;> fin_cases b <;> (simp [Zero]; try ring)

/-- The exponential map of `SL<2>` at the zero vector is the identity. -/
theorem SL_exp_zero_two (fuel : Nat) (hf : 1 ≤ fuel) :
    SL.exp fuel 2 (![0, 0, 0] : Fin 3 → ℚ) = .ok ⟨Identity 2⟩ := by
  have ht : (!![(![0, 0, 0] : Fin 3 → ℚ) 0, (![0, 0, 0] : Fin 3 → ℚ) 1 - (![0, 0, 0] : Fin 3 → ℚ) 2;
      (![0, 0, 0] : Fin 3 → ℚ) 1 + (![0, 0, 0] : Fin 3 → ℚ) 2, -(![0, 0, 0] : Fin 3 → ℚ) 0] : Mat 2 2)
      = Zero 2 2 := by
    funext a b
    fin_cases a <;> fin_cases b <;> simp [Zero]
  have hd : ((3 : Nat) : Int) = dim 2 := by decide
  rw [SL.exp, if_pos hd, sum_generators_two, ht]
  simp only [Except.bind, exp_Zero 2 fuel hf]

/-- In exact arithmetic the exponential map of `SL<2>` has no result at the
vector `(1, 0, 0)`, whatever the bound on the iterations of the Taylor loop:
the stopping test of `exp_taylor` relies on the rounding of the floating-point
type. -/
theorem SL_exp_diag_out_of_fuel (fuel : Nat) :
    SL.exp fuel 2 (![1, 0, 0] : Fin 3 → ℚ) = .error .out_of_fuel := by
  have ht : (!![(![1, 0, 0] : Fin 3 → ℚ) 0, (![1, 0, 0] : Fin 3 → ℚ) 1 - (![1, 0, 0] : Fin 3 → ℚ) 2;
      (![1, 0, 0] : Fin 3 → ℚ) 1 + (![1, 0, 0] : Fin 3 → ℚ) 2, -(![1, 0, 0] : Fin 3 → ℚ) 0] : Mat 2 2)
      = !![1, 0; 0, -1] := by
    funext a b
    fin_cases a <;> fin_cases b <;> simp
  have hd : ((3 : Nat) : Int) = dim 2 := by decide
  rw [SL.exp, if_pos hd, sum_generators_two, ht]
  simp only [Except.bind, exp_diag_out_of_fuel]

/-! ## The norms as maxima of sums -/

theorem max_fold_eq_sup' {R : Nat} (g : Fin R → ℚ) (hg : ∀ r, 0 ≤ g r) (h : 0 < R) :
    (List.finRange R).foldl (fun n r => max n (g r)) 0
      = Finset.univ.sup' ⟨(⟨0, h⟩ : Fin R), Finset.mem_univ _⟩ g := by
  apply le_antisymm
  · rcases max_fold_eq g (List.finRange R) 0 with h0 | ⟨r, _, hr⟩
    · rw [h0]
      exact le_trans (hg ⟨0, h⟩) (Finset.le_sup' g (Finset.mem_univ _))
    · rw [hr]
      exact Finset.le_sup' g (Finset.mem_univ r)
  · apply Finset.sup'_le
    intro r _
    exact max_fold_ge_mem g _ 0 r (List.mem_finRange r)

theorem norm_inf_eq_sup' {R C : Nat} (M : Mat R C) (h : 0 < R) :
    norm_inf M = Finset.univ.sup' ⟨(⟨0, h⟩ : Fin R), Finset.mem_univ _⟩
      (fun r => ∑ c, |M r c|) := by
  rw [norm_inf_fold]
  exact max_fold_eq_sup' _ (fun r => Finset.sum_nonneg (fun c _ => abs_nonneg (M r c))) h

theorem norm_inf_no_rows {R C : Nat} (M : Mat R C) (h : R = 0) : norm_inf M = 0 := by
  subst h
  rfl

theorem norm_1_eq_norm_inf_transpose {R C : Nat} (M : Mat R C) :
    norm_1 M = norm_inf (Matrix.transpose M) := rfl

/-- C14: for every `R x C` matrix `M`, `norm_inf(M)` is the maximum over the
rows `r` of the sum over the columns `c` of `|M(r,c)|`, and it is 0 when `M`
has no rows. -/
theorem norm_inf_max_row_sum {R C : Nat} (M : Mat R C) :
    (∀ h : 0 < R, norm_inf M
      = Finset.univ.sup' ⟨(⟨0, h⟩ : Fin R), Finset.mem_univ _⟩ (fun r => ∑ c, |M r c|)) ∧
    (R = 0 → norm_inf M = 0) :=
  ⟨norm_inf_eq_sup' M, norm_inf_no_rows M⟩

/-- Witness of C14 on `[[1,-2],[3,4]]`: the row sums are 3 and 7. -/
theorem norm_inf_max_row_sum_witness :
    norm_inf (!![1, -2; 3, 4] : Mat 2 2)
      = Finset.univ.sup' ⟨(⟨0, by decide⟩ : Fin 2), Finset.mem_univ _⟩
        (fun r => ∑ c, |(!![1, -2; 3, 4] : Mat 2 2) r c|) :=
  (norm_inf_max_row_sum (!![1, -2; 3, 4] : Mat 2 2)).1 (by decide)

/-- C15: for every `R x C` matrix `M`, `norm_1(M)` is the maximum over the
columns `c` of the sum over the rows `r` of `|M(r,c)|`, it is 0 when `M` has
no columns, and it is `norm_inf` of the transpose of `M`. -/
theorem norm_1_max_col_sum {R C : Nat} (M : Mat R C) :
    (∀ h : 0 < C, norm_1 M
      = Finset.univ.sup' ⟨(⟨0, h⟩ : Fin C), Finset.mem_univ _⟩ (fun c => ∑ r, |M r c|)) ∧
    (C = 0 → norm_1 M = 0) ∧
    norm_1 M = norm_inf (Matrix.transpose M) := by
  refine ⟨?_, ?_, rfl⟩
  · intro h
    rw [norm_1_eq_norm_inf_transpose, norm_inf_eq_sup' _ h]
    rfl
  · intro h
    rw [norm_1_eq_norm_inf_transpose]
    exact norm_inf_no_rows _ h

/-- Witness of C15 on `[[1,-2],[3,4]]`: the column sums are 4 and 6. -/
theorem norm_1_max_col_sum_witness :
    norm_1 (!![1, -2; 3, 4] : Mat 2 2)
      = Finset.univ.sup' ⟨(⟨0, by decide⟩ : Fin 2), Finset.mem_univ _⟩
        (fun c => ∑ r, |(!![1, -2; 3, 4] : Mat 2 2) r c|) :=
  (norm_1_max_col_sum (!![1, -2; 3, 4] : Mat 2 2)).1 (by decide)

/-- C16: `norm_inf` of the zero matrix of any size is 0, and the scaling
exponent that `exp` computes from it, `max(0,(int)ceil(log2(0)))`, is 0. -/
theorem norm_inf_zero_scaling (R C n : Nat) :
    norm_inf (Zero R C) = 0 ∧
      max 0 (int_ceil_log2 (norm_inf (Zero R C))) = 0 ∧
      exp_scaling (Zero n n) = 0 := by
  refine ⟨norm_inf_Zero R C, ?_, exp_scaling_Zero n⟩
  rw [norm_inf_Zero]
  simp [int_ceil_log2, INT_MIN]

/-! ## The outcome of `coerce` -/

theorem coerce_state_square (N : Nat) (M : Mat N N) :
    coerce_state N M =
      if |LU_determinant M| > 0 then (.ok (), divScalar M (LU_determinant M))
      else (.error .assertion, M) := by
  simp [coerce_state]

theorem coerce_state_mismatch (N : Nat) {R C : Nat} (M : Mat R C) (h : ¬ (N = R ∧ N = C)) :
    coerce_state N M = (.error .size_mismatch, M) ∧ coerce N M = .error .size_mismatch := by
  by_cases hR : N = R
  · have hC : ¬ N = C := fun hC => h ⟨hR, hC⟩
    constructor
    · rw [coerce_state, dif_pos hR, dif_neg hC]
    · rw [coerce, dif_pos hR, dif_neg hC]
  · constructor
    · rw [coerce_state, dif_neg hR]
    · rw [coerce, dif_neg hR]

/-- The two descriptions of `coerce` agree: the outcome, and on success the
content of the argument. -/
theorem coerce_state_fst (N : Nat) {R C : Nat} (M : Mat R C) :
    coerce N M = (coerce_state N M).1.map (fun _ => (coerce_state N M).2) := by
  by_cases h : N = R ∧ N = C
  · obtain ⟨hR, hC⟩ := h
    subst hR
    subst hC
    rw [coerce_square, coerce_state_square]
    by_cases hd : |LU_determinant M| > 0
    · rw [if_pos hd, if_pos hd]; rfl
    · rw [if_neg hd, if_neg hd]; rfl
  · rw [(coerce_state_mismatch N M h).1, (coerce_state_mismatch N M h).2]
    rfl

/-- C17: `coerce(M)` fails with the assertion exactly when `M` is `N x N` and
its determinant is 0, and then `M` is left as it was; for every `N x N`
matrix with non-zero determinant the call succeeds. -/
theorem coerce_assertion (N : Nat) {R C : Nat} (M : Mat R C) :
    ((coerce_state N M).1 = .error .assertion ↔
      ∃ (hR : N = R) (hC : N = C),
        LU_determinant (Matrix.submatrix M (Fin.cast hR) (Fin.cast hC)) = 0) ∧
    ((coerce_state N M).1 = .error .assertion → (coerce_state N M).2 = M) ∧
    (∀ M' : Mat N N, LU_determinant M' ≠ 0 →
      (coerce_state N M').1 = .ok () ∧ coerce N M' = .ok (divScalar M' (LU_determinant M'))) := by
  refine ⟨?_, ?_, ?_⟩
  · by_cases h : N = R ∧ N = C
    · obtain ⟨hR, hC⟩ := h
      subst hR
      subst hC
      rw [coerce_state_square]
      constructor
      · intro hfail
        refine ⟨rfl, rfl, ?_⟩
        by_contra hne
        have hne' : LU_determinant M ≠ 0 := hne
        rw [if_pos (abs_pos.mpr hne')] at hfail
        exact absurd hfail (by simp)
      · rintro ⟨_, _, hdet⟩
        have hdet' : LU_determinant M = 0 := hdet
        rw [hdet']
        simp
    · rw [(coerce_state_mismatch N M h).1]
      constructor
      · intro hfail
        exact absurd hfail (by simp)
      · rintro ⟨hR, hC, _⟩
        exact absurd ⟨hR, hC⟩ h
  · by_cases h : N = R ∧ N = C
    · obtain ⟨hR, hC⟩ := h
      subst hR
      subst hC
      rw [coerce_state_square]
      by_cases hd : |LU_determinant M| > 0
      · rw [if_pos hd]
        intro hfail
        exact absurd hfail (by simp)
      · rw [if_neg hd]
        intro _
        rfl
    · rw [(coerce_state_mismatch N M h).1]
      intro _
      rfl
  · intro M' hdet
    rw [coerce_state_square, coerce_square, if_pos (abs_pos.mpr hdet), if_pos (abs_pos.mpr hdet)]
    exact ⟨rfl, rfl⟩

/-- Witness of C17: the singular matrix `[[1,2],[2,4]]` fails the assertion
and is left as it was. -/
theorem coerce_assertion_witness :
    (coerce_state 2 (!![1, 2; 2, 4] : Mat 2 2)).1 = .error .assertion ∧
      (coerce_state 2 (!![1, 2; 2, 4] : Mat 2 2)).2 = !![1, 2; 2, 4] := by
  have h := coerce_assertion 2 (!![1, 2; 2, 4] : Mat 2 2)
  have hfail : (coerce_state 2 (!![1, 2; 2, 4] : Mat 2 2)).1 = .error .assertion :=
    h.1.mpr ⟨rfl, rfl, by simp [LU_determinant, Matrix.det_fin_two]; norm_num⟩
  exact ⟨hfail, h.2.1 hfail⟩

/-! ## The group operations of `SL<N>` -/

theorem mul_LU_get_inverse {N : Nat} (M : Mat N N) (h : LU_determinant M ≠ 0) :
    M * LU_get_inverse M = 1 := by
  have h' : Matrix.det M ≠ 0 := h
  rw [LU_get_inverse, LU_determinant, Matrix.mul_smul, Matrix.mul_adjugate, smul_smul,
    inv_mul_cancel₀ h', one_smul]

theorem det_LU_get_inverse {N : Nat} (M : Mat N N) (h : LU_determinant M = 1) :
    LU_determinant (LU_get_inverse M) = 1 := by
  have hne : LU_determinant M ≠ 0 := by rw [h]; exact one_ne_zero
  have hm := congrArg Matrix.det (mul_LU_get_inverse M hne)
  rw [Matrix.det_mul, Matrix.det_one] at hm
  have h' : Matrix.det M = 1 := h
  rw [h', one_mul] at hm
  exact hm

theorem det_Identity (N : Nat) : LU_determinant (Identity N) = 1 := by
  rw [Identity_eq, LU_determinant, Matrix.det_one]

/-- C11: for every element `a` of `SL<N>` (its matrix is invertible, as the
matrix of every element that the constructors build is), `a * a.inverse()` is
the default-constructed element, the identity. -/
theorem SL_mul_inverse (N : Nat) (a : SL N) (h : LU_determinant a.get_matrix ≠ 0) :
    SL.mul a (SL.inverse a) = SL.default N := by
  simp only [SL.mul, SL.inverse, SL.default, SL.get_matrix]
  rw [mul_LU_get_inverse a.my_matrix h, Identity_eq]

/-- Witness of C11 at the element with the matrix `[[2,1],[1,1]]`. -/
theorem SL_mul_inverse_witness :
    LU_determinant (SL.get_matrix (⟨!![2, 1; 1, 1]⟩ : SL 2)) ≠ 0 ∧
      SL.mul (⟨!![2, 1; 1, 1]⟩ : SL 2) (SL.inverse (⟨!![2, 1; 1, 1]⟩ : SL 2)) = SL.default 2 :=
  have h : LU_determinant (SL.get_matrix (⟨!![2, 1; 1, 1]⟩ : SL 2)) ≠ 0 := by
    simp [LU_determinant, SL.get_matrix, Matrix.det_fin_two]; norm_num
  ⟨h, SL_mul_inverse 2 _ h⟩

/-- C12: the default-constructed element has determinant 1, and for all
elements `a` and `b` whose matrices have determinant 1, the matrices of
`a * b`, of `a` after `a *= b` (and of the element that `*=` returns) and of
`a.inverse()` have determinant 1. -/
theorem det_one_invariant (N : Nat) (a b : SL N)
    (ha : LU_determinant a.get_matrix = 1) (hb : LU_determinant b.get_matrix = 1) :
    LU_determinant (SL.default N).get_matrix = 1 ∧
      LU_determinant (SL.mul a b).get_matrix = 1 ∧
      LU_determinant (SL.mul_assign a b).1.get_matrix = 1 ∧
      LU_determinant (SL.mul_assign a b).2.get_matrix = 1 ∧
      LU_determinant (SL.inverse a).get_matrix = 1 := by
  have hmul : LU_determinant (SL.mul a b).get_matrix = 1 := by
    have ha' : Matrix.det a.my_matrix = 1 := ha
    have hb' : Matrix.det b.my_matrix = 1 := hb
    simp only [SL.mul, SL.get_matrix, LU_determinant, Matrix.det_mul, ha', hb', mul_one]
  exact ⟨det_Identity N, hmul, hmul, hmul, det_LU_get_inverse a.my_matrix ha⟩

/-- Witness of C12 at the elements with the matrices `[[1,1],[0,1]]` and
`[[2,1],[1,1]]`. -/
theorem det_one_invariant_witness :
    LU_determinant (SL.get_matrix (⟨!![1, 1; 0, 1]⟩ : SL 2)) = 1 ∧
      LU_determinant (SL.get_matrix (⟨!![2, 1; 1, 1]⟩ : SL 2)) = 1 ∧
      LU_determinant (SL.mul (⟨!![1, 1; 0, 1]⟩ : SL 2) ⟨!![2, 1; 1, 1]⟩).get_matrix = 1 ∧
      LU_determinant (SL.inverse (⟨!![1, 1; 0, 1]⟩ : SL 2)).get_matrix = 1 :=
  have ha : LU_determinant (SL.get_matrix (⟨!![1, 1; 0, 1]⟩ : SL 2)) = 1 := by
    simp [LU_determinant, SL.get_matrix, Matrix.det_fin_two]
  have hb : LU_determinant (SL.get_matrix (⟨!![2, 1; 1, 1]⟩ : SL 2)) = 1 := by
    simp [LU_determinant, SL.get_matrix, Matrix.det_fin_two]; norm_num
  have h := det_one_invariant 2 _ _ ha hb
  ⟨ha, hb, h.2.1, h.2.2.2.2⟩

/-! ## The Taylor loop computes partial sums of the exponential series -/

theorem divScalar_eq_smul {R C : Nat} (M : Mat R C) (d : ℚ) : divScalar M d = d⁻¹ • M := by
  funext r c
  simp [divScalar, div_eq_inv_mul]

/-- The state of the loop of `exp_taylor` after `j` iterations. -/
theorem taylor_iterate {n : Nat} (A : Mat n n) : ∀ j : Nat,
    (taylor_body A)^[j] (taylor_init n)
      = ⟨∑ k ∈ Finset.range j, ((k.factorial : ℚ))⁻¹ • A ^ k,
          ((j.factorial : ℚ))⁻¹ • A ^ j, (j : ℚ) + 1⟩
  | 0 => by
    simp [taylor_init, Zero_eq, Identity_eq]
  | j + 1 => by
    rw [Function.iterate_succ_apply', taylor_iterate A j]
    simp only [taylor_body]
    congr 1
    · rw [Finset.sum_range_succ]
    · have hj : ((j : ℚ) + 1) ≠ 0 := by positivity
      rw [divScalar_eq_smul, Matrix.mul_smul, smul_smul, ← pow_succ', Nat.factorial_succ]
      congr 1
      push_cast
      field_simp
    · push_cast
      ring

/-- When the loop of `exp_taylor` returns, it has run some number `j` of
iterations, at most the bound: the test held before each of them and fails
in the state reached. -/
theorem taylor_loop_some {n : Nat} (A : Mat n n) : ∀ (fuel : Nat) (st st' : TaylorState n),
    taylor_loop A fuel st = some st' →
      ∃ j : Nat, j ≤ fuel ∧ st' = (taylor_body A)^[j] st ∧ taylor_test st' = false ∧
        ∀ i : Nat, i < j → taylor_test ((taylor_body A)^[i] st) = true := by
  intro fuel
  induction fuel with
  | zero =>
    intro st st' h
    by_cases ht : taylor_test st = true
    · rw [taylor_loop_exhausted A st ht] at h
      exact absurd h (by simp)
    · have ht' : taylor_test st = false := by simpa using ht
      rw [taylor_loop_stop A 0 st ht'] at h
      have hst : st' = st := (Option.some.inj h).symm
      exact ⟨0, le_refl 0, by rw [hst]; rfl, by rw [hst]; exact ht', fun i hi => absurd hi (by omega)⟩
  | succ fuel ih =>
    intro st st' h
    by_cases ht : taylor_test st = true
    · rw [taylor_loop_step A fuel st ht] at h
      obtain ⟨j, hj, hst, hstop, hrun⟩ := ih (taylor_body A st) st' h
      refine ⟨j + 1, by omega, ?_, hstop, ?_⟩
      · rw [hst, Function.iterate_succ_apply]
      · intro i hi
        cases i with
        | zero => exact ht
        | succ i =>
          rw [Function.iterate_succ_apply]
          exact hrun i (by omega)
    · have ht' : taylor_test st = false := by simpa using ht
      rw [taylor_loop_stop A (fuel + 1) st ht'] at h
      have hst : st' = st := (Option.some.inj h).symm
      exact ⟨0, Nat.zero_le _, by rw [hst]; rfl, by rw [hst]; exact ht',
        fun i hi => absurd hi (by omega)⟩

/-- C18: for every square matrix `A` and every `j >= 0`, after `j` iterations
of the loop of `exp_taylor(A)` the running sum `result` is the partial sum of
`A^k / k!` for `k = 0..j-1`, the running term `f` is `A^j / j!` and the
counter `k` is `j + 1`; when the loop stops it has run some number `j` of
iterations, and the value that `exp_taylor` returns is that partial sum of
the exponential series of `A`. -/
theorem taylor_partial_sums {n : Nat} (A : Mat n n) :
    (∀ j : Nat, (taylor_body A)^[j] (taylor_init n)
      = ⟨∑ k ∈ Finset.range j, ((k.factorial : ℚ))⁻¹ • A ^ k,
          ((j.factorial : ℚ))⁻¹ • A ^ j, (j : ℚ) + 1⟩) ∧
    (∀ (fuel : Nat) (st : TaylorState n), taylor_loop A fuel (taylor_init n) = some st →
      ∃ j : Nat, j ≤ fuel ∧ st = (taylor_body A)^[j] (taylor_init n) ∧
        (∀ i : Nat, i < j → taylor_test ((taylor_body A)^[i] (taylor_init n)) = true)) ∧
    (∀ (fuel : Nat) (X : Mat n n), exp_taylor fuel A = .ok X →
      ∃ j : Nat, j ≤ fuel ∧ X = ∑ k ∈ Finset.range j, ((k.factorial : ℚ))⁻¹ • A ^ k) := by
  refine ⟨taylor_iterate A, ?_, ?_⟩
  · intro fuel st h
    obtain ⟨j, hj, hst, _, hrun⟩ := taylor_loop_some A fuel _ st h
    exact ⟨j, hj, hst, hrun⟩
  · intro fuel X h
    rw [exp_taylor] at h
    cases hl : taylor_loop A fuel (taylor_init n) with
    | none => rw [hl] at h; exact absurd h (by simp)
    | some st =>
      rw [hl] at h
      obtain ⟨j, hj, hst, _, _⟩ := taylor_loop_some A fuel _ st hl
      refine ⟨j, hj, ?_⟩
      have hX : X = st.result := (Except.ok.inj h).symm
      rw [hX, hst, taylor_iterate A j]

/-! ## Scaling and squaring -/

theorem clog_two_pow (k : Nat) : Int.clog 2 ((2 : ℚ) ^ k) = (k : Int) := by
  have h := Int.clog_zpow (R := ℚ) (b := 2) (by norm_num) (k : Int)
  rw [zpow_natCast] at h
  exact_mod_cast h

theorem square_times_eq_pow {n : Nat} : ∀ (i : Nat) (T : Mat n n),
    square_times i T = T ^ (2 ^ i)
  | 0, T => by simp [square_times]
  | i + 1, T => by
    rw [square_times, square_times_eq_pow i (T * T), ← pow_two, ← pow_mul, pow_succ']

theorem shl_one_small (s : Int) (h0 : 0 ≤ s) (h : s ≤ 30) :
    shl_one s = .ok ((2 : Int) ^ s.toNat) := by
  have hk : s.toNat ≤ 30 := by omega
  have h1 : (2 : Int) ^ s.toNat ≤ 2 ^ 30 := pow_le_pow_right₀ (by norm_num) hk
  have h2 : (0 : Int) < 2 ^ s.toNat := by positivity
  rw [shl_one, if_pos (by omega)]
  congr 1
  generalize (2 : Int) ^ s.toNat = x at h1 h2
  norm_num at h1 ⊢
  omega

theorem shl_one_31 : shl_one 31 = .ok (-2 ^ 31) := by
  simp [shl_one]

theorem shl_one_32 : shl_one 32 = .error .undefined := by
  simp [shl_one]

theorem exp_scaling_nonneg {n : Nat} (m : Mat n n) : 0 ≤ exp_scaling m :=
  le_max_left _ _

/-- The norm of the input is at most 2 to the scaling exponent. -/
theorem norm_inf_le_two_pow {n : Nat} (m : Mat n n) :
    norm_inf m ≤ (2 : ℚ) ^ (exp_scaling m).toNat := by
  by_cases hpos : 0 < norm_inf m
  · have h1 : norm_inf m ≤ ((2 : Nat) : ℚ) ^ Int.clog 2 (norm_inf m) :=
      Int.self_le_zpow_clog (by norm_num) _
    have h2 : Int.clog 2 (norm_inf m) ≤ ((exp_scaling m).toNat : Int) := by
      have : Int.clog 2 (norm_inf m) ≤ exp_scaling m := by
        rw [exp_scaling, int_ceil_log2, if_pos hpos]
        exact le_max_right _ _
      have := exp_scaling_nonneg m
      omega
    have h3 : ((2 : Nat) : ℚ) ^ Int.clog 2 (norm_inf m)
        ≤ ((2 : Nat) : ℚ) ^ ((exp_scaling m).toNat : Int) :=
      zpow_le_zpow_right₀ (by norm_num) h2
    rw [zpow_natCast] at h3
    exact_mod_cast le_trans h1 h3
  · have h0 : norm_inf m = 0 := le_antisymm (not_lt.mp hpos) (norm_inf_nonneg m)
    rw [h0]
    positivity

theorem max_fold_div {α : Type} (g : α → ℚ) (a : ℚ) (ha : 0 < a) : ∀ (l : List α) (b : ℚ),
    l.foldl (fun n r => max n (g r / a)) (b / a) = l.foldl (fun n r => max n (g r)) b / a
  | [], _ => rfl
  | r :: l, b => by
    rw [List.foldl_cons, List.foldl_cons, max_div_div_right ha.le, max_fold_div g a ha l]

/-- The norm of a matrix divided by a scalar. -/
theorem norm_inf_divScalar {R C : Nat} (m : Mat R C) (d : ℚ) (hd : d ≠ 0) :
    norm_inf (divScalar m d) = norm_inf m / |d| := by
  have hrow : ∀ r, ∑ c, |divScalar m d r c| = (∑ c, |m r c|) / |d| := by
    intro r
    rw [Finset.sum_div]
    exact Finset.sum_congr rfl (fun c _ => by rw [divScalar, abs_div])
  rw [norm_inf_fold, norm_inf_fold]
  simp only [hrow]
  have h := max_fold_div (fun r => ∑ c, |m r c|) |d| (abs_pos.mpr hd) (List.finRange R) 0
  rw [zero_div] at h
  exact h

/-- As long as the scaling exponent is at most 31 the shift `1<<s` has a
value, and the matrix handed to `exp_taylor` has `norm_inf` at most 1. -/
theorem scaled_norm_le_one {n : Nat} (m : Mat n n) (h : exp_scaling m ≤ 31) :
    ∃ p : Int, shl_one (exp_scaling m) = .ok p ∧ |(p : ℚ)| = (2 : ℚ) ^ (exp_scaling m).toNat ∧
      norm_inf (divScalar m (p : ℚ)) ≤ 1 := by
  have h0 := exp_scaling_nonneg m
  have hn := norm_inf_le_two_pow m
  have hfin : ∀ p : Int, |(p : ℚ)| = (2 : ℚ) ^ (exp_scaling m).toNat →
      norm_inf (divScalar m (p : ℚ)) ≤ 1 := by
    intro p hp
    have hp0 : (p : ℚ) ≠ 0 := by
      intro hz
      rw [hz, abs_zero] at hp
      exact absurd hp.symm (by positivity)
    rw [norm_inf_divScalar m _ hp0, hp, div_le_one (by positivity)]
    exact hn
  by_cases h31 : exp_scaling m = 31
  · have hp : |(((-2 ^ 31 : Int)) : ℚ)| = (2 : ℚ) ^ (exp_scaling m).toNat := by
      rw [h31]
      have ht : Int.toNat 31 = 31 := rfl
      rw [ht]
      norm_num
    exact ⟨-2 ^ 31, by rw [h31]; exact shl_one_31, hp, hfin _ hp⟩
  · have hp : |((((2 : Int) ^ (exp_scaling m).toNat : Int)) : ℚ)|
        = (2 : ℚ) ^ (exp_scaling m).toNat := by
      push_cast
      exact abs_of_pos (by positivity)
    exact ⟨2 ^ (exp_scaling m).toNat, shl_one_small _ h0 (by omega), hp, hfin _ hp⟩

/-- As long as the scaling exponent is at most 30, `exp(M)` is
`exp_taylor(M / 2^s)` raised to the power `2^s`. -/
theorem exp_eq_pow {n : Nat} (fuel : Nat) (m : Mat n n) (h : exp_scaling m ≤ 30) :
    exp fuel m = (exp_taylor fuel (divScalar m ((2 : ℚ) ^ (exp_scaling m).toNat))).bind
      fun T => .ok (T ^ (2 ^ (exp_scaling m).toNat)) := by
  rw [exp]
  simp only [shl_one_small _ (exp_scaling_nonneg m) h, Except.bind, Int.cast_pow,
    Int.cast_ofNat]
  cases exp_taylor fuel (divScalar m ((2 : ℚ) ^ (exp_scaling m).toNat)) with
  | error e => rfl
  | ok T => simp only [square_times_eq_pow]

/-- The function `exp_taylor` on the nilpotent matrix `[[0,0],[c,0]]`: two
iterations, and the value `[[1,0],[c,1]]`. -/
theorem exp_taylor_nilpotent (c : ℚ) (hc : c ≠ 0) (fuel : Nat) (hf : 2 ≤ fuel) :
    exp_taylor fuel (!![0, 0; c, 0] : Mat 2 2) = .ok (!![1, 0; c, 1] : Mat 2 2) := by
  obtain ⟨fuel', rfl⟩ : ∃ fuel', fuel = fuel' + 2 := ⟨fuel - 2, by omega⟩
  have hb1 : taylor_body (!![0, 0; c, 0] : Mat 2 2) (taylor_init 2)
      = ⟨Identity 2, !![0, 0; c, 0], 2⟩ := by
    simp only [taylor_body, taylor_init]
    congr 1
    · funext a b
      simp [Zero]
    · funext a b
      fin_cases a <;> fin_cases b <;>
        simp [divScalar, Identity, Matrix.mul_apply, Fin.sum_univ_two]
    · norm_num
  have ht1 : taylor_test (⟨Identity 2, !![0, 0; c, 0], 2⟩ : TaylorState 2) = true :=
    (taylor_test_iff _).mpr ⟨1, 0, by simpa using hc⟩
  have hb2 : taylor_body (!![0, 0; c, 0] : Mat 2 2) ⟨Identity 2, !![0, 0; c, 0], 2⟩
      = ⟨!![1, 0; c, 1], Zero 2 2, 3⟩ := by
    simp only [taylor_body]
    congr 1
    · funext a b
      fin_cases a <;> fin_cases b <;> simp [Identity]
    · funext a b
      fin_cases a <;> fin_cases b <;>
        simp [divScalar, Zero, Matrix.mul_apply, Fin.sum_univ_two]
    · norm_num
  have ht2 : taylor_test (⟨!![1, 0; c, 1], Zero 2 2, 3⟩ : TaylorState 2) = false := by
    rw [Bool.eq_false_iff]
    intro h
    obtain ⟨r, c', hrc⟩ := (taylor_test_iff _).mp h
    exact hrc rfl
  rw [exp_taylor, taylor_loop_step _ _ _ (taylor_test_init 2 (by norm_num)), hb1,
    taylor_loop_step _ _ _ ht1, hb2, taylor_loop_stop _ _ _ ht2]

/-- Witness of C18 on the matrix `[[0,0],[1,0]]`: `exp_taylor` returns
`[[1,0],[1,1]]`, a partial sum of the exponential series. -/
theorem taylor_partial_sums_witness :
    exp_taylor 2 (!![0, 0; 1, 0] : Mat 2 2) = .ok (!![1, 0; 1, 1] : Mat 2 2) ∧
      ∃ j : Nat, j ≤ 2 ∧ (!![1, 0; 1, 1] : Mat 2 2)
        = ∑ k ∈ Finset.range j, ((k.factorial : ℚ))⁻¹ • (!![0, 0; 1, 0] : Mat 2 2) ^ k :=
  ⟨exp_taylor_nilpotent 1 one_ne_zero 2 (le_refl 2),
    (taylor_partial_sums (!![0, 0; 1, 0] : Mat 2 2)).2.2 2 _
      (exp_taylor_nilpotent 1 one_ne_zero 2 (le_refl 2))⟩

theorem unipotent_pow (c : ℚ) : ∀ k : Nat,
    (!![1, 0; c, 1] : Mat 2 2) ^ k = !![1, 0; (k : ℚ) * c, 1]
  | 0 => by
    funext a b
    fin_cases a <;> fin_cases b <;> simp [Matrix.one_apply]
  | k + 1 => by
    rw [pow_succ, unipotent_pow c k]
    funext a b
    fin_cases a <;> fin_cases b <;> simp [Matrix.mul_apply, Fin.sum_univ_two]
    ring

theorem exp_scaling_two_pow_31 : exp_scaling (!![0, 0; (2 : ℚ) ^ 31, 0] : Mat 2 2) = 31 := by
  have hn : norm_inf (!![0, 0; (2 : ℚ) ^ 31, 0] : Mat 2 2) = (2 : ℚ) ^ 31 := by
    simp [norm_inf, List.finRange]
  rw [exp_scaling, hn, int_ceil_log2, if_pos (by positivity), clog_two_pow]
  rfl

theorem exp_scaling_two_pow_32 : exp_scaling (!![(2 : ℚ) ^ 32] : Mat 1 1) = 32 := by
  have hn : norm_inf (!![(2 : ℚ) ^ 32] : Mat 1 1) = (2 : ℚ) ^ 32 := by
    simp [norm_inf, List.finRange]
  rw [exp_scaling, hn, int_ceil_log2, if_pos (by positivity), clog_two_pow]
  rfl

theorem exp_unfold {n : Nat} (fuel : Nat) (m : Mat n n) :
    exp fuel m = (shl_one (exp_scaling m)).bind fun p =>
      (exp_taylor fuel (divScalar m (p : ℚ))).bind fun result =>
        .ok (square_times (exp_scaling m).toNat result) := rfl

/-- C13 (evaluation at the failing input): for the `1 x 1` matrix `[[2^32]]`
the scaling exponent is 32, the shift `1<<32` on the 32-bit `int` has no
defined value, and `exp` hands no scaled matrix to `exp_taylor`. -/
theorem exp_shift_undefined :
    norm_inf (!![(2 : ℚ) ^ 32] : Mat 1 1) = (2 : ℚ) ^ 32 ∧
      exp_scaling (!![(2 : ℚ) ^ 32] : Mat 1 1) = 32 ∧
      shl_one 32 = .error .undefined ∧
      exp 1 (!![(2 : ℚ) ^ 32] : Mat 1 1) = .error .undefined := by
  refine ⟨by simp [norm_inf, List.finRange], exp_scaling_two_pow_32, shl_one_32, ?_⟩
  rw [exp_unfold, exp_scaling_two_pow_32, shl_one_32]
  rfl

/-- C19 (evaluation at the failing input): for `M = [[0,0],[2^31,0]]` the
scaling exponent is 31 and the shift `1<<31` is `INT_MIN = -2^31`, so that
`exp(M)` is `[[1,0],[-2^31,1]]`, whereas `T = exp_taylor(M / 2^31)` is
`[[1,0],[1,1]]` and `T` squared 31 times is `[[1,0],[2^31,1]]`. -/
theorem exp_shift_sign :
    exp_scaling (!![0, 0; (2 : ℚ) ^ 31, 0] : Mat 2 2) = 31 ∧
      shl_one 31 = .ok (-2 ^ 31) ∧
      exp 2 (!![0, 0; (2 : ℚ) ^ 31, 0] : Mat 2 2) = .ok (!![1, 0; -(2 : ℚ) ^ 31, 1] : Mat 2 2) ∧
      exp_taylor 2 (divScalar (!![0, 0; (2 : ℚ) ^ 31, 0] : Mat 2 2) ((2 : ℚ) ^ 31))
        = .ok (!![1, 0; 1, 1] : Mat 2 2) ∧
      square_times 31 (!![1, 0; 1, 1] : Mat 2 2) = !![1, 0; (2 : ℚ) ^ 31, 1] ∧
      (!![1, 0; -(2 : ℚ) ^ 31, 1] : Mat 2 2) ≠ !![1, 0; (2 : ℚ) ^ 31, 1] := by
  have hd1 : divScalar (!![0, 0; (2 : ℚ) ^ 31, 0] : Mat 2 2) (((-2 ^ 31 : Int)) : ℚ)
      = !![0, 0; -1, 0] := by
    funext a b
    fin_cases a <;> fin_cases b <;> simp [divScalar]
    norm_num
  have hd2 : divScalar (!![0, 0; (2 : ℚ) ^ 31, 0] : Mat 2 2) ((2 : ℚ) ^ 31)
      = !![0, 0; 1, 0] := by
    funext a b
    fin_cases a <;> fin_cases b <;> simp [divScalar]
  have hsq1 : square_times 31 (!![1, 0; -1, 1] : Mat 2 2) = !![1, 0; -(2 : ℚ) ^ 31, 1] := by
    rw [square_times_eq_pow, unipotent_pow]
    congr 1
    norm_num
  have hsq2 : square_times 31 (!![1, 0; 1, 1] : Mat 2 2) = !![1, 0; (2 : ℚ) ^ 31, 1] := by
    rw [square_times_eq_pow, unipotent_pow]
    congr 1
    norm_num
  refine ⟨exp_scaling_two_pow_31, shl_one_31, ?_, ?_, hsq2, ?_⟩
  · rw [exp_unfold, exp_scaling_two_pow_31, shl_one_31]
    simp only [Except.bind, hd1, exp_taylor_nilpotent (-1) (by norm_num) 2 (le_refl 2)]
    rw [show Int.toNat 31 = 31 from rfl, hsq1]
  · rw [hd2]
    exact exp_taylor_nilpotent 1 one_ne_zero 2 (le_refl 2)
  · intro h
    have h10 := congrFun (congrFun h 1) 0
    norm_num at h10

/-! ## The matrices of the elements that can be built are invertible -/

open Polynomial in
theorem det_one_add_nilpotent {n : Nat} (B : Mat n n) (h : IsNilpotent B) :
    Matrix.det (1 + B) = 1 := by
  have hu := Matrix.isUnit_charpolyRev_of_isNilpotent h
  obtain ⟨c, _, hcp⟩ := Polynomial.isUnit_iff.mp hu
  have h0 : eval 0 (Matrix.charpolyRev B) = 1 := Matrix.eval_charpolyRev
  have hc1 : c = 1 := by
    rw [← hcp, eval_C] at h0
    exact h0
  have hev : eval (-1) (Matrix.charpolyRev B) = Matrix.det (1 + B) := by
    rw [Matrix.charpolyRev, ← coe_evalRingHom, RingHom.map_det]
    congr 1
    ext i j
    rcases eq_or_ne i j with hij | hij <;> simp [hij, Matrix.one_apply]
  rw [← hev, ← hcp, hc1, eval_C]

/-- In exact arithmetic, whenever `exp_taylor` returns, the matrix it returns
has determinant 1: the loop stops only when a power of the argument is 0, and
the value is then the identity plus a nilpotent matrix. -/
theorem exp_taylor_det_one {n : Nat} (fuel : Nat) (A T : Mat n n)
    (h : exp_taylor fuel A = .ok T) : Matrix.det T = 1 := by
  rw [exp_taylor] at h
  cases hl : taylor_loop A fuel (taylor_init n) with
  | none => rw [hl] at h; exact absurd h (by simp)
  | some st =>
    rw [hl] at h
    obtain ⟨j, _, hst, hstop, _⟩ := taylor_loop_some A fuel _ st hl
    have hT : T = st.result := (Except.ok.inj h).symm
    rw [hst, taylor_iterate A j] at hT
    have hf : ((j.factorial : ℚ))⁻¹ • A ^ j = 0 := by
      have hz : ∀ r c, st.f r c = 0 := by
        intro r c
        by_contra hne
        have := (taylor_test_iff st).mpr ⟨r, c, hne⟩
        rw [hstop] at this
        exact absurd this (by simp)
      rw [hst, taylor_iterate A j] at hz
      funext r c
      exact hz r c
    have hA : A ^ j = 0 := by
      have hj : ((j.factorial : ℚ))⁻¹ ≠ 0 := inv_ne_zero (by positivity)
      exact (smul_eq_zero.mp hf).resolve_left hj
    cases j with
    | zero =>
      have h10 : (1 : Mat n n) = 0 := by simpa using hA
      have hT0 : T = 1 := by rw [hT, h10]; simp
      rw [hT0, Matrix.det_one]
    | succ j =>
      simp only at hT
      rw [Finset.sum_range_succ'] at hT
      simp only [Nat.factorial_zero, Nat.cast_one, inv_one, pow_zero, one_smul] at hT
      have hB : (∑ k ∈ Finset.range j, (((k + 1).factorial : ℚ))⁻¹ • A ^ (k + 1))
          = A * ∑ k ∈ Finset.range j, (((k + 1).factorial : ℚ))⁻¹ • A ^ k := by
        rw [Finset.mul_sum]
        exact Finset.sum_congr rfl (fun k _ => by rw [Matrix.mul_smul, ← pow_succ'])
      have hcomm : Commute A (∑ k ∈ Finset.range j, (((k + 1).factorial : ℚ))⁻¹ • A ^ k) :=
        Commute.sum_right _ _ _
          (fun k _ => Commute.smul_right (Commute.pow_right (Commute.refl A) k) _)
      have hnil : IsNilpotent
          (∑ k ∈ Finset.range j, (((k + 1).factorial : ℚ))⁻¹ • A ^ (k + 1)) := by
        refine ⟨j + 1, ?_⟩
        rw [hB, hcomm.mul_pow, hA, zero_mul]
      rw [hT, add_comm]
      exact det_one_add_nilpotent _ hnil

/-- In exact arithmetic, whenever `exp` returns, the matrix it returns has
determinant 1. -/
theorem exp_det_one {n : Nat} (fuel : Nat) (m X : Mat n n) (h : exp fuel m = .ok X) :
    Matrix.det X = 1 := by
  rw [exp_unfold] at h
  cases hp : shl_one (exp_scaling m) with
  | error e => rw [hp] at h; exact absurd h (by simp [Except.bind])
  | ok p =>
    rw [hp] at h
    simp only [Except.bind] at h
    cases hT : exp_taylor fuel (divScalar m (p : ℚ)) with
    | error e => rw [hT] at h; exact absurd h (by simp)
    | ok T =>
      rw [hT] at h
      have hX : X = square_times (exp_scaling m).toNat T := (Except.ok.inj h).symm
      rw [hX, square_times_eq_pow, Matrix.det_pow, exp_taylor_det_one fuel _ T hT, one_pow]

/-- In exact arithmetic, whenever the exponential map of `SL<N>` returns, the
matrix of the element has determinant 1. -/
theorem SL_exp_det_one (fuel N : Nat) {S : Nat} (v : Fin S → ℚ) (a : SL N)
    (h : SL.exp fuel N v = .ok a) : LU_determinant a.get_matrix = 1 := by
  rw [SL.exp] at h
  split_ifs at h with hS
  cases ht : sum_generators N v (List.range (dim N).toNat) (Zero N N) with
  | error e => rw [ht] at h; exact absurd h (by simp [Except.bind])
  | ok t =>
    rw [ht] at h
    simp only [Except.bind] at h
    cases hX : TooN.exp fuel t with
    | error e => rw [hX] at h; exact absurd h (by simp)
    | ok X =>
      rw [hX] at h
      have ha : a = ⟨X⟩ := (Except.ok.inj h).symm
      rw [ha]
      exact exp_det_one fuel t X hX

/-- The coercing constructor only builds elements with an invertible matrix. -/
theorem ofMatrix_det_ne_zero (N : Nat) (M M' : Mat N N) (a : SL N)
    (h : SL.ofMatrix N M = .ok (a, M')) : LU_determinant a.get_matrix ≠ 0 := by
  intro hdet
  by_cases hM : LU_determinant M = 0
  · have hc : coerce N M = .error .assertion := by
      rw [coerce_square, hM]
      simp
    simp only [SL.ofMatrix, dite_true, hc] at h
    exact absurd h (by simp)
  · obtain ⟨a', ha', hget⟩ := ofMatrix_keeps N M hM
    rw [h] at ha'
    have : a = a' := (Prod.mk.inj (Except.ok.inj ha')).1
    rw [this, hget] at hdet
    exact hM hdet

/-- A matrix that `coerce` has accepted is invertible after the call (this is
the matrix that `operator>>` leaves in the element). -/
theorem coerce_det_ne_zero (N : Nat) (M M' : Mat N N) (h : coerce N M = .ok M') :
    LU_determinant M' ≠ 0 := by
  by_cases hM : LU_determinant M = 0
  · rw [coerce_square, hM] at h
    exact absurd h (by simp)
  · obtain ⟨hc, hd⟩ := coerce_det N M hM
    rw [h] at hc
    have hM' : M' = divScalar M (LU_determinant M) := Except.ok.inj hc
    rw [hM', LU_determinant, hd]
    exact div_ne_zero hM (pow_ne_zero _ hM)

/-- The product and the inverse keep the matrix invertible. -/
theorem mul_inverse_det_ne_zero (N : Nat) (a b : SL N)
    (ha : LU_determinant a.get_matrix ≠ 0) (hb : LU_determinant b.get_matrix ≠ 0) :
    LU_determinant (SL.mul a b).get_matrix ≠ 0 ∧
      LU_determinant (SL.inverse a).get_matrix ≠ 0 := by
  constructor
  · simp only [SL.mul, SL.get_matrix, LU_determinant, Matrix.det_mul]
    exact mul_ne_zero ha hb
  · intro hz
    have hm := congrArg Matrix.det (mul_LU_get_inverse a.my_matrix ha)
    rw [Matrix.det_mul, Matrix.det_one] at hm
    have hz' : Matrix.det (LU_get_inverse a.my_matrix) = 0 := hz
    rw [hz', mul_zero] at hm
    exact zero_ne_one hm

end TooN
